import Mathlib

/-!
Mandelbrot renderer (`mandel.c`): a shallow embedding.

The C program renders the Mandelbrot set into a bitmap, splitting the rows of
the image between `numberOfThreads` workers.

Conventions of the embedding.

* `int` is a 32-bit two's complement integer.  Values are integers of Lean and
  every product that can leave the 32-bit range is reduced by `wrap32`.
  Division is the truncating division of C (`Int.tdiv`); a division that traps
  (divisor `0`, or `INT_MIN / -1`) is the result `none`.  Increments of a loop
  counter stay below the loop bound and are not reduced.
* `double` is a carrier `F` with the operations the program uses
  (`DoubleOps F`).  No law is assumed about them, so a statement proved for every
  `F` holds for IEEE binary64 as well as for exact arithmetic.  The instance on
  `ℚ` is exact arithmetic.  `ExactOnFixed` states the one property of binary64
  that concrete evaluations need: an operation whose exact result is a short
  binary fraction returns that result.
* The bitmap module (`bitmap.h`) is not part of the sources; it is modelled from
  the specification.
* A `while` or `for` loop is a recursive function whose termination Lean checks;
  no fuel is involved.
* The workers are run one after the other, in the order in which `main`
  creates them; a worker that traps ends the program (`none`).  `runWorkers`
  runs them in any given order.
* A run of `main` without defined behaviour has no result (`none`) either: the
  arrays of lines 104-105 with a negative `numberOfThreads`.
* `specOrbit` and `specEscaped` follow the words of the specification and are
  compared with the loop of the program.
-/

namespace Mandel

/-! ## Machine integers -/

/-- Reduction of an integer to the 32-bit two's complement range. -/
def wrap32 (n : Int) : Int := (n + 2147483648) % 4294967296 - 2147483648

/-- The division `a / b` of C on `int`: truncating, and trapping when the divisor is
zero or when the quotient is not representable. -/
def cdiv (a b : Int) : Option Int :=
  if b = 0 then none
  else if a = -2147483648 ∧ b = -1 then none
  else some (Int.tdiv a b)

/-! ## Row bands (`main`, lines 115-116) -/

/-- The first row of worker `i`: `(i * image_height) / numberOfThreads`.  The division
cannot trap where `main` evaluates it, since there `0 ≤ i < numberOfThreads`. -/
def startRow (i image_height numberOfThreads : Int) : Int :=
  Int.tdiv (wrap32 (i * image_height)) numberOfThreads

/-- The row after the last row of worker `i`:
`((i + 1) * image_height) / numberOfThreads`. -/
def endRow (i image_height numberOfThreads : Int) : Int :=
  Int.tdiv (wrap32 ((i + 1) * image_height)) numberOfThreads

/-! ## Doubles -/

/-- The operations on `double` that the program uses: `+`, `-`, `*`, `/`, the
conversion of an `int`, and the comparison `<=`. -/
class DoubleOps (F : Type) extends Add F, Sub F, Mul F, Div F where
  /-- Conversion `int → double`. -/
  ofInt : Int → F
  /-- The comparison `a <= b`. -/
  le : F → F → Bool

/-- Exact arithmetic on the rationals. -/
instance exactArith : DoubleOps ℚ where
  ofInt n := (n : ℚ)
  le a b := decide (a ≤ b)

/-- The arithmetic is exact on the fixed-point values `m / 2^32` with `|m| < 2^53`, where
`ι m` is the double of value `m / 2^32`: an operation on two such values whose exact
result is again such a value returns it, and comparisons are the exact ones.  Every such
value is a binary64 number, so IEEE arithmetic has this property; products and quotients
with a zero operand are left out (their sign of zero is not modelled). -/
structure ExactOnFixed {F : Type} [DoubleOps F] (ι : Int → F) : Prop where
  add : ∀ a b : Int, |a| < 9007199254740992 → |b| < 9007199254740992 →
    |a + b| < 9007199254740992 → ι a + ι b = ι (a + b)
  sub : ∀ a b : Int, |a| < 9007199254740992 → |b| < 9007199254740992 →
    |a - b| < 9007199254740992 → ι a - ι b = ι (a - b)
  mul : ∀ a b : Int, a ≠ 0 → b ≠ 0 → |a| < 9007199254740992 → |b| < 9007199254740992 →
    (a * b) % 4294967296 = 0 → |a * b / 4294967296| < 9007199254740992 →
    ι a * ι b = ι (a * b / 4294967296)
  div : ∀ a b : Int, a ≠ 0 → b ≠ 0 → |a| < 9007199254740992 → |b| < 9007199254740992 →
    (a * 4294967296) % b = 0 → |a * 4294967296 / b| < 9007199254740992 →
    ι a / ι b = ι (a * 4294967296 / b)
  le : ∀ a b : Int, |a| < 9007199254740992 → |b| < 9007199254740992 →
    DoubleOps.le (ι a) (ι b) = decide (a ≤ b)
  ofInt : ∀ n : Int, |n| < 1048576 → DoubleOps.ofInt n = ι (n * 4294967296)

/-- The fixed-point values in exact arithmetic. -/
def fixedRat (m : Int) : ℚ := (m : ℚ) / 4294967296

/-! ## Colors and bitmaps (`bitmap.h`) -/

/-- Modelled from the spec: a color is a 4-channel (red, green, blue, alpha) value.  The
channels hold the arguments given to `MAKE_RGBA`; `bitmap.h`, which packs them, is not part
of the sources. -/
structure Color where
  red : Int
  green : Int
  blue : Int
  alpha : Int
deriving DecidableEq

/-- Modelled from the spec: the macro `MAKE_RGBA` of `bitmap.h` builds the color
(red, green, blue, alpha). -/
def MAKE_RGBA (r g b a : Int) : Color := ⟨r, g, b, a⟩

/-- Modelled from the spec: `struct bitmap` of `bitmap.h` is a grid of colors, width ×
height, indexed by (column, row). -/
structure bitmap where
  width : Int
  height : Int
  data : Int → Int → Color

/-- Modelled from the spec: `create(width, height)`, an image of the given size. -/
def bitmap_create (w h : Int) : bitmap := ⟨w, h, fun _ _ => MAKE_RGBA 0 0 0 0⟩

/-- Modelled from the spec: `reset(Image, Color)` fills the image with a color. -/
def bitmap_reset (m : bitmap) (color : Color) : bitmap := { m with data := fun _ _ => color }

/-- Modelled from the spec: `setPixel(Image, x, y, Color)` sets the pixel in column `x`
of row `y`. -/
def bitmap_set (m : bitmap) (x y : Int) (color : Color) : bitmap :=
  { m with data := fun a b => if a = x ∧ b = y then color else m.data a b }

/-- Modelled from the spec: `width(Image)`. -/
def bitmap_width (m : bitmap) : Int := m.width

/-- Modelled from the spec: `height(Image)`. -/
def bitmap_height (m : bitmap) : Int := m.height

/-! ## Loops -/

/-- The loop `for (v = lo; v < hi; v++) body`, whose body may trap. -/
def forLoop {σ : Type} (body : Int → σ → Option σ) (hi lo : Int) (s : σ) : Option σ :=
  if lo < hi then
    match body lo s with
    | none => none
    | some s' => forLoop body hi (lo + 1) s'
  else some s
termination_by (hi - lo).toNat
decreasing_by omega

section
variable {F : Type} [DoubleOps F]

/-! ## The point evaluator (lines 179-210) -/

/-- The function `iteration_to_color`: `gray = 255*i/max` in `int` arithmetic, then
`MAKE_RGBA(gray,gray,gray,0)`. -/
def iteration_to_color (i max : Int) : Option Color :=
  match cdiv (wrap32 (255 * i)) max with
  | none => none
  | some gray => some (MAKE_RGBA gray gray gray 0)

/-- The variables `x`, `y` and `iter` of `iterations_at_point`. -/
structure LoopState (F : Type) where
  x : F
  y : F
  iter : Int

/-- The test of the loop: `(x*x + y*y <= 4) && iter < max`. -/
def loopCond (max : Int) (s : LoopState F) : Bool :=
  DoubleOps.le (s.x * s.x + s.y * s.y) (DoubleOps.ofInt 4) && decide (s.iter < max)

/-- The body of the loop: `xt = x*x - y*y + x0; yt = 2*x*y + y0; x = xt; y = yt; iter++`. -/
def loopBody (x0 y0 : F) (s : LoopState F) : LoopState F :=
  { x := s.x * s.x - s.y * s.y + x0
    y := DoubleOps.ofInt 2 * s.x * s.y + y0
    iter := s.iter + 1 }

/-- The `while` loop of `iterations_at_point`. -/
def whileLoop (max : Int) (x0 y0 : F) (s : LoopState F) : LoopState F :=
  if loopCond max s = true then whileLoop max x0 y0 (loopBody x0 y0 s) else s
termination_by (max - s.iter).toNat
decreasing_by
  rename_i h
  simp only [loopCond, Bool.and_eq_true, decide_eq_true_eq] at h
  simp only [loopBody]
  omega

/-- The function `iterations_at_point`: the color of the point `(x, y)`. -/
def iterations_at_point (x y : F) (max : Int) : Option Color :=
  iteration_to_color (whileLoop max x y ⟨x, y, 0⟩).iter max

/-! ## The worker (lines 144-172) -/

/-- The record `ThreadData`.  Its field `bm` points to the bitmap all workers share; the
bitmap is passed as the state instead. -/
structure ThreadData (F : Type) where
  xMin : F
  xMax : F
  yMin : F
  yMax : F
  maxIterations : Int
  startRow : Int
  endRow : Int

/-- The abscissa of column `i`: `data->xMin + i*(data->xMax - data->xMin) / width`. -/
def pixelX (data : ThreadData F) (width i : Int) : F :=
  data.xMin + DoubleOps.ofInt i * (data.xMax - data.xMin) / DoubleOps.ofInt width

/-- The ordinate of row `j`: `data->yMin + j*(data->yMax - data->yMin)/height`. -/
def pixelY (data : ThreadData F) (height j : Int) : F :=
  data.yMin + DoubleOps.ofInt j * (data.yMax - data.yMin) / DoubleOps.ofInt height

/-- The body of the inner loop of `compute_image_thread`, for the pixel in column `i` of
row `j`. -/
def pixelStep (data : ThreadData F) (width height j i : Int) (bm : bitmap) : Option bitmap :=
  let x := pixelX data width i
  let y := pixelY data height j
  match iterations_at_point x y data.maxIterations with
  | none => none
  | some iters => some (bitmap_set bm i j iters)

/-- The function `compute_image_thread`: the rows `startRow ≤ j < endRow` of the image. -/
def compute_image_thread (data : ThreadData F) (bm : bitmap) : Option bitmap :=
  let width := bitmap_width bm
  let height := bitmap_height bm
  forLoop (fun j => forLoop (pixelStep data width height j) width 0) data.endRow data.startRow bm

/-! ## The main program (lines 43-136) -/

/-- The configuration after the command line has been read. -/
structure Config (F : Type) where
  xcenter : F
  ycenter : F
  scale : F
  image_width : Int
  image_height : Int
  max : Int
  numberOfThreads : Int

/-- The record `thread_data[i]` that `main` fills for worker `i` (lines 109-116). -/
def thread_data (cfg : Config F) (i : Int) : ThreadData F :=
  { xMin := cfg.xcenter - cfg.scale
    xMax := cfg.xcenter + cfg.scale
    yMin := cfg.ycenter - cfg.scale
    yMax := cfg.ycenter + cfg.scale
    maxIterations := cfg.max
    startRow := startRow i cfg.image_height cfg.numberOfThreads
    endRow := endRow i cfg.image_height cfg.numberOfThreads }

/-- The state of `main` while it creates workers: the shared bitmap and the number of calls
of `pthread_create` so far. -/
structure MainState where
  bm : bitmap
  created : Int

/-- One round of the loop of line 108: worker `i` is created and runs. -/
def launch (cfg : Config F) (i : Int) (st : MainState) : Option MainState :=
  match compute_image_thread (thread_data cfg i) st.bm with
  | none => none
  | some bm => some { bm := bm, created := st.created + 1 }

/-- What a run of `main` that reaches its end has done: the number of workers created, the
bitmap handed to `bitmap_save`, whether the error message was printed, and the exit status. -/
structure RunResult where
  created : Int
  saved : bitmap
  errorReported : Bool
  status : Int

/-- The function `main` from line 98 on; `bitmap_save` is the outcome of saving.  The arrays
`threads` and `thread_data` of lines 104-105 have `numberOfThreads` elements: the declaration
of an array of negative length has no defined behaviour, and the run then has no result
(`none`); a length of zero is taken as the empty array, as gcc and clang compile it, and no
element of it is ever accessed. -/
def main (cfg : Config F) (bitmap_save : bitmap → Bool) : Option RunResult :=
  let bm := bitmap_reset (bitmap_create cfg.image_width cfg.image_height) (MAKE_RGBA 0 0 255 0)
  if cfg.numberOfThreads < 0 then none
  else
    match forLoop (launch cfg) cfg.numberOfThreads 0 { bm := bm, created := 0 } with
    | none => none
    | some st =>
      if bitmap_save st.bm then
        some { created := st.created, saved := st.bm, errorReported := false, status := 0 }
      else
        some { created := st.created, saved := st.bm, errorReported := true, status := 1 }

/-- A worker with the viewport and iteration bound of `cfg` and the rows `lo ≤ j < hi`. -/
def rowsThread (cfg : Config F) (lo hi : Int) : ThreadData F :=
  { thread_data cfg 0 with startRow := lo, endRow := hi }

/-- The configuration of the known example: center `(-0.5, 0)`, scale `1.5`, a 3×3 image,
`max = 1000`, with `n` workers. -/
def centerCfg (ι : Int → F) (n : Int) : Config F :=
  { xcenter := ι (-2147483648), ycenter := ι 0, scale := ι 6442450944,
    image_width := 3, image_height := 3, max := 1000, numberOfThreads := n }

end

/-- The default configuration of `main` (center (0, 0), scale 4, `max = 1000`) with a
`w`×`h` image and `n` workers, in exact arithmetic. -/
def defaultCfg (w h n : Int) : Config ℚ :=
  { xcenter := 0, ycenter := 0, scale := 4,
    image_width := w, image_height := h, max := 1000, numberOfThreads := n }

/-! ## Reference definitions -/

section
variable {F : Type} [DoubleOps F]

/-- The orbit of the point `c = (x0, y0)` in the words of the specification: `z_0 = c` and
`z_{n+1} = z_n^2 + c`, with real part `x^2 - y^2 + x0` and imaginary part `2xy + y0`. -/
def specOrbit (x0 y0 : F) : Nat → F × F
  | 0 => (x0, y0)
  | n + 1 =>
    ((specOrbit x0 y0 n).1 * (specOrbit x0 y0 n).1
        - (specOrbit x0 y0 n).2 * (specOrbit x0 y0 n).2 + x0,
      DoubleOps.ofInt 2 * (specOrbit x0 y0 n).1 * (specOrbit x0 y0 n).2 + y0)

/-- The escape test of the specification, `|z|^2 > 4`, for the comparison of the program:
`x*x + y*y <= 4` is false. -/
def specEscaped (z : F × F) : Bool :=
  !DoubleOps.le (z.1 * z.1 + z.2 * z.2) (DoubleOps.ofInt 4)

/-- The workers with the indices `ks` of the configuration `cfg`, run one after the other in
the order of the list. -/
def runWorkers (cfg : Config F) : List Int → bitmap → Option bitmap
  | [], bm => some bm
  | k :: ks, bm =>
    match compute_image_thread (thread_data cfg k) bm with
    | none => none
    | some bm1 => runWorkers cfg ks bm1

/-- The indices `0, 1, ..., W - 1` of the workers, in the order in which `main` creates
them. -/
def workerIndices (W : Int) : List Int := (List.range W.toNat).map (fun k : Nat => (k : Int))

/-- What the arithmetic must satisfy for the symmetry under conjugation.  `same a b` reads
"`a` and `b` are the same number" and `opp a b` reads "`b` is the negative of `a`"; sums,
differences and products respect them and the comparison does not tell two equal numbers
apart.  Exact arithmetic has these properties with equality and negation, and so has IEEE
arithmetic with a rounding that is symmetric about zero, when the two zeros count as the
same number and so do any two NaNs. -/
structure ConjLaws (same opp : F → F → Prop) : Prop where
  refl : ∀ a, same a a
  add : ∀ a a1 b b1, same a a1 → same b b1 → same (a + b) (a1 + b1)
  sub : ∀ a a1 b b1, same a a1 → same b b1 → same (a - b) (a1 - b1)
  mul : ∀ a a1 b b1, same a a1 → same b b1 → same (a * b) (a1 * b1)
  mul_opp_opp : ∀ a a1 b b1, opp a a1 → opp b b1 → same (a * b) (a1 * b1)
  mul_same_opp : ∀ a a1 b b1, same a a1 → opp b b1 → opp (a * b) (a1 * b1)
  add_opp : ∀ a a1 b b1, opp a a1 → opp b b1 → opp (a + b) (a1 + b1)
  le : ∀ a a1 b b1, same a a1 → same b b1 → DoubleOps.le a b = DoubleOps.le a1 b1

end

end Mandel

namespace Mandel

/-! ## Machine integers: lemmas -/

theorem wrap32_of_range {n : Int} (h1 : -2147483648 ≤ n) (h2 : n ≤ 2147483647) :
    wrap32 n = n := by
  unfold wrap32; omega

theorem cdiv_of_pos {a b : Int} (ha : 0 ≤ a) (hb : 0 < b) : cdiv a b = some (a / b) := by
  unfold cdiv
  rw [if_neg (ne_of_gt hb), if_neg (by omega), Int.tdiv_eq_ediv ha (le_of_lt hb)]

theorem cdiv_isSome_of_pos (a : Int) {b : Int} (hb : 0 < b) : ∃ q, cdiv a b = some q := by
  unfold cdiv
  rw [if_neg (ne_of_gt hb), if_neg (by omega)]
  exact ⟨_, rfl⟩

theorem floor_div_eq {H W : Int} (hW : 0 < W) : ⌊(H : ℚ) / (W : ℚ)⌋ = H / W := by
  have hWq : (0 : ℚ) < (W : ℚ) := by exact_mod_cast hW
  rw [Int.floor_eq_iff]
  constructor
  · rw [le_div_iff₀ hWq]
    exact_mod_cast Int.ediv_mul_le H (ne_of_gt hW)
  · rw [div_lt_iff₀ hWq]
    exact_mod_cast Int.lt_ediv_add_one_mul_self H hW

/-! ## Row bands: lemmas -/

/-- Without overflow and for a non-negative height the band bound is the floor quotient. -/
theorem startRow_eq_ediv {k H W : Int} (hH : 0 ≤ H) (hW : 0 < W) (hWH : W * H ≤ 2147483647)
    (hk0 : 0 ≤ k) (hk : k ≤ W) : startRow k H W = (k * H) / W := by
  have h0 : 0 ≤ k * H := Int.mul_nonneg hk0 hH
  have h1 : k * H ≤ W * H := Int.mul_le_mul_of_nonneg_right hk hH
  unfold startRow
  rw [wrap32_of_range (by omega) (by omega), Int.tdiv_eq_ediv h0 (le_of_lt hW)]

theorem endRow_eq_startRow_succ (k H W : Int) : endRow k H W = startRow (k + 1) H W := rfl

theorem startRow_bounds {k H W : Int} (hH : 0 ≤ H) (hW : 0 < W) (hWH : W * H ≤ 2147483647)
    (hk0 : 0 ≤ k) (hk : k ≤ W) :
    startRow k H W * W ≤ k * H ∧ k * H < (startRow k H W + 1) * W := by
  rw [startRow_eq_ediv hH hW hWH hk0 hk]
  exact ⟨Int.ediv_mul_le _ (ne_of_gt hW), Int.lt_ediv_add_one_mul_self _ hW⟩

theorem startRow_zero (H W : Int) : startRow 0 H W = 0 := by
  simp [startRow, wrap32]

theorem startRow_last {H W : Int} (hH : 0 ≤ H) (hW : 0 < W) (hWH : W * H ≤ 2147483647) :
    startRow W H W = H := by
  rw [startRow_eq_ediv hH hW hWH (le_of_lt hW) le_rfl]
  exact Int.mul_ediv_cancel_left H (ne_of_gt hW)

theorem startRow_mono {k k' H W : Int} (hH : 0 ≤ H) (hW : 0 < W) (hWH : W * H ≤ 2147483647)
    (hk0 : 0 ≤ k) (hkk : k ≤ k') (hk : k' ≤ W) : startRow k H W ≤ startRow k' H W := by
  rw [startRow_eq_ediv hH hW hWH hk0 (le_trans hkk hk),
    startRow_eq_ediv hH hW hWH (le_trans hk0 hkk) hk]
  exact Int.ediv_le_ediv hW (Int.mul_le_mul_of_nonneg_right hkk hH)

/-- For a non-positive height every band is empty. -/
theorem endRow_le_startRow_of_nonpos {k H W : Int} (hH : H ≤ 0) (hW : 0 < W)
    (hWH : -2147483648 ≤ W * H) (hk0 : 0 ≤ k) (hk : k < W) :
    endRow k H W ≤ startRow k H W := by
  have hN : 0 ≤ -H := by omega
  have e1 : k * H = -(k * -H) := by ring
  have e2 : (k + 1) * H = -((k + 1) * -H) := by ring
  have a0 : 0 ≤ k * -H := Int.mul_nonneg hk0 hN
  have a1 : k * -H ≤ (k + 1) * -H := Int.mul_le_mul_of_nonneg_right (by omega) hN
  have a2 : (k + 1) * -H ≤ W * -H := Int.mul_le_mul_of_nonneg_right (by omega) hN
  have e3 : W * -H = -(W * H) := by ring
  unfold endRow startRow
  rw [wrap32_of_range (by omega) (by omega), wrap32_of_range (by omega) (by omega), e1, e2,
    Int.neg_tdiv, Int.neg_tdiv, Int.tdiv_eq_ediv a0 (le_of_lt hW),
    Int.tdiv_eq_ediv (le_trans a0 a1) (le_of_lt hW)]
  have := Int.ediv_le_ediv hW a1
  omega

/-- Row `j` lies in band `k` exactly when `k * H < (j + 1) * W ≤ (k + 1) * H`. -/
theorem mem_band_iff {k j H W : Int} (hH : 0 ≤ H) (hW : 0 < W) (hWH : W * H ≤ 2147483647)
    (hk0 : 0 ≤ k) (hk : k < W) :
    (startRow k H W ≤ j ∧ j < endRow k H W) ↔
      (k * H < (j + 1) * W ∧ (j + 1) * W ≤ (k + 1) * H) := by
  rw [endRow_eq_startRow_succ, startRow_eq_ediv hH hW hWH hk0 (le_of_lt hk),
    startRow_eq_ediv hH hW hWH (by omega) (by omega)]
  constructor
  · rintro ⟨h1, h2⟩
    exact ⟨(Int.ediv_lt_iff_lt_mul hW).1 (show k * H / W < j + 1 by omega),
      (Int.le_ediv_iff_mul_le hW).1 (show j + 1 ≤ (k + 1) * H / W by omega)⟩
  · rintro ⟨h1, h2⟩
    have a := (Int.ediv_lt_iff_lt_mul hW).2 h1
    have b := (Int.le_ediv_iff_mul_le hW).2 h2
    constructor <;> omega

theorem band_exists_unique {j H W : Int} (hH : 0 ≤ H) (hW : 0 < W) (hWH : W * H ≤ 2147483647)
    (hj0 : 0 ≤ j) (hj : j < H) :
    ∃! k, (0 ≤ k ∧ k < W) ∧ startRow k H W ≤ j ∧ j < endRow k H W := by
  have hHpos : 0 < H := by omega
  have hnum : 0 ≤ (j + 1) * W - 1 := by
    have : 0 < (j + 1) * W := Int.mul_pos (by omega) hW
    omega
  have hlt : (j + 1) * W - 1 < W * H := by
    have : (j + 1) * W ≤ H * W := Int.mul_le_mul_of_nonneg_right (by omega) (le_of_lt hW)
    have e : H * W = W * H := Int.mul_comm _ _
    omega
  have hk0 : 0 ≤ ((j + 1) * W - 1) / H := Int.ediv_nonneg hnum hH
  have hk : ((j + 1) * W - 1) / H < W := (Int.ediv_lt_iff_lt_mul hHpos).2 hlt
  refine ⟨((j + 1) * W - 1) / H, ⟨⟨hk0, hk⟩, ?_⟩, ?_⟩
  · apply (mem_band_iff hH hW hWH hk0 hk).2
    have a := Int.ediv_mul_le ((j + 1) * W - 1) (ne_of_gt hHpos)
    have b := Int.lt_ediv_add_one_mul_self ((j + 1) * W - 1) hHpos
    constructor <;> omega
  · rintro k ⟨⟨hk0', hk'⟩, hmem⟩
    have hm := (mem_band_iff hH hW hWH hk0' hk').1 hmem
    have h1 : k * H ≤ (j + 1) * W - 1 := by omega
    have h2 : (j + 1) * W - 1 < (k + 1) * H := by omega
    apply le_antisymm
    · exact (Int.le_ediv_iff_mul_le hHpos).2 h1
    · have := (Int.ediv_lt_iff_lt_mul hHpos).2 h2
      omega

theorem band_within {k j H W : Int} (hH : 0 ≤ H) (hW : 0 < W) (hWH : W * H ≤ 2147483647)
    (hk0 : 0 ≤ k) (hk : k < W) (h1 : startRow k H W ≤ j) (h2 : j < endRow k H W) :
    0 ≤ j ∧ j < H := by
  have a := startRow_mono hH hW hWH le_rfl hk0 (le_of_lt hk)
  rw [startRow_zero] at a
  have b : startRow (k + 1) H W ≤ startRow W H W :=
    startRow_mono hH hW hWH (by omega) (by omega) le_rfl
  rw [startRow_last hH hW hWH] at b
  rw [endRow_eq_startRow_succ] at h2
  omega

theorem band_size {k H W : Int} (hH : 0 ≤ H) (hW : 0 < W) (hWH : W * H ≤ 2147483647)
    (hk0 : 0 ≤ k) (hk : k < W) :
    endRow k H W - startRow k H W = ⌊(H : ℚ) / (W : ℚ)⌋ ∨
      endRow k H W - startRow k H W = ⌈(H : ℚ) / (W : ℚ)⌉ := by
  have hWq : (0 : ℚ) < (W : ℚ) := by exact_mod_cast hW
  obtain ⟨a1, a2⟩ := startRow_bounds hH hW hWH hk0 (le_of_lt hk)
  obtain ⟨b1, b2⟩ := startRow_bounds hH hW hWH (k := k + 1) (by omega) (by omega)
  rw [endRow_eq_startRow_succ]
  have q1 := Int.ediv_mul_le H (ne_of_gt hW)
  have q2 := Int.lt_ediv_add_one_mul_self H hW
  set s := startRow k H W
  set e := startRow (k + 1) H W
  set q := H / W
  have lo : q ≤ e - s := by
    have : (s + q) * W < (e + 1) * W := by nlinarith
    have := lt_of_mul_lt_mul_right this (le_of_lt hW)
    omega
  have hi : e - s ≤ q + 1 := by
    have : e * W < (s + q + 2) * W := by nlinarith
    have := lt_of_mul_lt_mul_right this (le_of_lt hW)
    omega
  rcases (show e - s = q ∨ e - s = q + 1 by omega) with h | h
  · left; rw [floor_div_eq hW]; exact h
  · right
    rw [h, eq_comm, Int.ceil_eq_iff]
    have hq : q * W < H := by
      have : (e - s) * W < H + W := by nlinarith
      rw [h] at this
      nlinarith
    constructor
    · rw [lt_div_iff₀ hWq]
      have : ((q * W : Int) : ℚ) < (H : ℚ) := by exact_mod_cast hq
      push_cast at this ⊢
      linarith
    · rw [div_le_iff₀ hWq]
      have : ((H : Int) : ℚ) ≤ (((q + 1) * W : Int) : ℚ) := by exact_mod_cast le_of_lt q2
      push_cast at this ⊢
      linarith

/-! ## Row bands: the claims -/

/-- C2, amended.  When the product `W * H` fits a 32-bit `int`, the bands of `main` for a
height `H ≥ 0` and `W > 0` workers are the floor quotients `(k * H) / W`; the first band
starts at row 0, the last one ends at row `H`, no band is reversed, each band ends where the
next one starts, every row of `[0, H)` lies in exactly one band and every band lies within
`[0, H)`. -/
theorem band_partition (H W : Int) (hH : 0 ≤ H) (hW : 0 < W) (hWH : W * H ≤ 2147483647) :
    (∀ k, 0 ≤ k → k ≤ W → startRow k H W = (k * H) / W) ∧
    startRow 0 H W = 0 ∧ endRow (W - 1) H W = H ∧
    (∀ k, 0 ≤ k → k < W →
      startRow k H W ≤ endRow k H W ∧ endRow k H W = startRow (k + 1) H W) ∧
    (∀ j, 0 ≤ j → j < H →
      ∃! k, (0 ≤ k ∧ k < W) ∧ startRow k H W ≤ j ∧ j < endRow k H W) ∧
    (∀ k j, 0 ≤ k → k < W → startRow k H W ≤ j → j < endRow k H W → 0 ≤ j ∧ j < H) := by
  refine ⟨fun k hk0 hk => startRow_eq_ediv hH hW hWH hk0 hk, startRow_zero H W, ?_, ?_,
    fun j hj0 hj => band_exists_unique hH hW hWH hj0 hj,
    fun k j hk0 hk h1 h2 => band_within hH hW hWH hk0 hk h1 h2⟩
  · rw [endRow_eq_startRow_succ, show W - 1 + 1 = W by omega]
    exact startRow_last hH hW hWH
  · intro k hk0 hk
    exact ⟨startRow_mono hH hW hWH hk0 (by omega) (by omega), rfl⟩

/-- The partition of 500 rows between 7 workers. -/
theorem band_partition_witness :
    (∀ k, 0 ≤ k → k ≤ 7 → startRow k 500 7 = (k * 500) / 7) ∧
    startRow 0 500 7 = 0 ∧ endRow (7 - 1) 500 7 = 500 ∧
    (∀ k, 0 ≤ k → k < 7 →
      startRow k 500 7 ≤ endRow k 500 7 ∧ endRow k 500 7 = startRow (k + 1) 500 7) ∧
    (∀ j, 0 ≤ j → j < 500 →
      ∃! k, (0 ≤ k ∧ k < 7) ∧ startRow k 500 7 ≤ j ∧ j < endRow k 500 7) ∧
    (∀ k j, 0 ≤ k → k < 7 → startRow k 500 7 ≤ j → j < endRow k 500 7 → 0 ≤ j ∧ j < 500) :=
  band_partition 500 7 (by decide) (by decide) (by decide)

/-- C2 fails as stated: for `H = 524288` rows and `W = 4096` workers the product
`4096 * 524288 = 2^31` wraps, and the last band ends at row `-524288` instead of row `H`. -/
theorem band_partition_overflow :
    (0 : Int) ≤ 524288 ∧ (0 : Int) < 4096 ∧
      endRow (4096 - 1) 524288 4096 = -524288 ∧ endRow (4096 - 1) 524288 4096 ≠ 524288 := by
  decide

/-- C3, amended.  When the product `W * H` fits a 32-bit `int`, each band of `main` for a
height `H ≥ 0` and `W > 0` workers has `floor(H/W)` or `ceil(H/W)` rows, and the sizes of
two bands differ by at most one row. -/
theorem band_balance (H W : Int) (hH : 0 ≤ H) (hW : 0 < W) (hWH : W * H ≤ 2147483647) :
    (∀ k, 0 ≤ k → k < W →
      endRow k H W - startRow k H W = ⌊(H : ℚ) / (W : ℚ)⌋ ∨
      endRow k H W - startRow k H W = ⌈(H : ℚ) / (W : ℚ)⌉) ∧
    (∀ k k', 0 ≤ k → k < W → 0 ≤ k' → k' < W →
      |(endRow k H W - startRow k H W) - (endRow k' H W - startRow k' H W)| ≤ 1) := by
  refine ⟨fun k hk0 hk => band_size hH hW hWH hk0 hk, ?_⟩
  intro k k' hk0 hk hk0' hk'
  have a := band_size hH hW hWH hk0 hk
  have b := band_size hH hW hWH hk0' hk'
  have c1 := Int.floor_le_ceil ((H : ℚ) / (W : ℚ))
  have c2 := Int.ceil_le_floor_add_one ((H : ℚ) / (W : ℚ))
  rw [abs_le]
  rcases a with a | a <;> rcases b with b | b <;> rw [a, b] <;> constructor <;> omega

/-- The sizes of the bands of 500 rows between 7 workers. -/
theorem band_balance_witness :
    (∀ k, 0 ≤ k → k < 7 →
      endRow k 500 7 - startRow k 500 7 = ⌊((500 : Int) : ℚ) / ((7 : Int) : ℚ)⌋ ∨
      endRow k 500 7 - startRow k 500 7 = ⌈((500 : Int) : ℚ) / ((7 : Int) : ℚ)⌉) ∧
    (∀ k k', 0 ≤ k → k < 7 → 0 ≤ k' → k' < 7 →
      |(endRow k 500 7 - startRow k 500 7) - (endRow k' 500 7 - startRow k' 500 7)| ≤ 1) :=
  band_balance 500 7 (by decide) (by decide) (by decide)

/-- C3 fails as stated: for `H = 1048576` rows and `W = 2048` workers the product of the
last band wraps, and that band has size `-2096640`, while `floor(H/W) = ceil(H/W) = 512`. -/
theorem band_balance_overflow :
    (0 : Int) ≤ 1048576 ∧ (0 : Int) < 2048 ∧
      endRow 2047 1048576 2048 - startRow 2047 1048576 2048 = -2096640 ∧
      ⌊((1048576 : Int) : ℚ) / ((2048 : Int) : ℚ)⌋ = 512 ∧
      ⌈((1048576 : Int) : ℚ) / ((2048 : Int) : ℚ)⌉ = 512 := by
  refine ⟨by decide, by decide, by decide, ?_, ?_⟩
  · rw [floor_div_eq (by decide)]; decide
  · rw [Int.ceil_eq_iff]; norm_num

end Mandel

namespace Mandel

/-! ## The point evaluator: lemmas -/

section
variable {F : Type} [DoubleOps F]

theorem whileLoop_unfold (max : Int) (x0 y0 : F) (s : LoopState F) :
    whileLoop max x0 y0 s =
      if loopCond max s = true then whileLoop max x0 y0 (loopBody x0 y0 s) else s := by
  rw [whileLoop]

theorem whileLoop_of_cond_false (max : Int) (x0 y0 : F) (s : LoopState F)
    (h : loopCond max s = false) : whileLoop max x0 y0 s = s := by
  rw [whileLoop_unfold, h]
  simp

theorem whileLoop_of_cond_true (max : Int) (x0 y0 : F) (s : LoopState F)
    (h : loopCond max s = true) :
    whileLoop max x0 y0 s = whileLoop max x0 y0 (loopBody x0 y0 s) := by
  rw [whileLoop_unfold, if_pos h]

theorem loopCond_iter_lt {max : Int} {s : LoopState F} (h : loopCond max s = true) :
    s.iter < max := by
  simp only [loopCond, Bool.and_eq_true, decide_eq_true_eq] at h
  exact h.2

theorem loopBody_iter (x0 y0 : F) (s : LoopState F) : (loopBody x0 y0 s).iter = s.iter + 1 :=
  rfl

theorem iterate_loopBody_iter (x0 y0 : F) (n : Nat) (s : LoopState F) :
    ((loopBody x0 y0)^[n] s).iter = s.iter + n := by
  induction n generalizing s with
  | zero => simp
  | succ n ih =>
    rw [Function.iterate_succ_apply, ih, loopBody_iter]
    push_cast
    ring

/-- The loop runs its body some number `n` of times, at most `max - iter` times: the test
holds before each of the `n` executions, fails after the last one, and the loop returns the
state reached. -/
theorem whileLoop_runs (max : Int) (x0 y0 : F) :
    ∀ (m : Nat) (s : LoopState F), (max - s.iter).toNat = m →
      ∃ n : Nat, n ≤ m ∧
        (∀ k : Nat, k < n → loopCond max ((loopBody x0 y0)^[k] s) = true) ∧
        loopCond max ((loopBody x0 y0)^[n] s) = false ∧
        whileLoop max x0 y0 s = (loopBody x0 y0)^[n] s := by
  intro m
  induction m with
  | zero =>
    intro s hm
    have hc : loopCond max s = false := by
      cases h : loopCond max s with
      | false => rfl
      | true => have := loopCond_iter_lt h; omega
    exact ⟨0, le_rfl, fun k hk => absurd hk (Nat.not_lt_zero k), hc,
      whileLoop_of_cond_false max x0 y0 s hc⟩
  | succ m ih =>
    intro s hm
    cases hc : loopCond max s with
    | false =>
      exact ⟨0, Nat.zero_le _, fun k hk => absurd hk (Nat.not_lt_zero k), hc,
        whileLoop_of_cond_false max x0 y0 s hc⟩
    | true =>
      have hlt := loopCond_iter_lt hc
      obtain ⟨n, hn, hbefore, hafter, hres⟩ :=
        ih (loopBody x0 y0 s) (by rw [loopBody_iter]; omega)
      refine ⟨n + 1, Nat.succ_le_succ hn, ?_, ?_, ?_⟩
      · intro k hk
        cases k with
        | zero => exact hc
        | succ k =>
          rw [Function.iterate_succ_apply]
          exact hbefore k (Nat.lt_of_succ_lt_succ hk)
      · rw [Function.iterate_succ_apply]; exact hafter
      · rw [whileLoop_of_cond_true max x0 y0 s hc, Function.iterate_succ_apply]
        exact hres

end

theorem iteration_to_color_of_pos (i : Int) {max : Int} (hmax : 0 < max) :
    ∃ g, iteration_to_color i max = some (MAKE_RGBA g g g 0) := by
  obtain ⟨q, hq⟩ := cdiv_isSome_of_pos (wrap32 (255 * i)) hmax
  exact ⟨q, by unfold iteration_to_color; rw [hq]⟩

theorem iteration_to_color_gray_of_some {i max : Int} {c : Color}
    (h : iteration_to_color i max = some c) : ∃ g, c = MAKE_RGBA g g g 0 := by
  unfold iteration_to_color at h
  cases hq : cdiv (wrap32 (255 * i)) max with
  | none => rw [hq] at h; cases h
  | some q => rw [hq] at h; cases h; exact ⟨q, rfl⟩

/-! ## The point evaluator: the claims -/

/-- C4.  For every point `(x, y)`, in every arithmetic, and every positive `max`, the loop
of `iterations_at_point` stops after some number `n ≤ max` of executions of its body (the
test holds before each of them and fails after the last), and the iteration count handed to
`iteration_to_color` is `n`, which lies in `[0, max]`. -/
theorem iterations_at_point_terminates {F : Type} [DoubleOps F] (x y : F) (max : Int)
    (hmax : 0 < max) :
    ∃ n : Nat, (n : Int) ≤ max ∧
      (∀ k : Nat, k < n → loopCond max ((loopBody x y)^[k] ⟨x, y, 0⟩) = true) ∧
      loopCond max ((loopBody x y)^[n] ⟨x, y, 0⟩) = false ∧
      whileLoop max x y ⟨x, y, 0⟩ = (loopBody x y)^[n] ⟨x, y, 0⟩ ∧
      (whileLoop max x y ⟨x, y, 0⟩).iter = n ∧
      0 ≤ (whileLoop max x y ⟨x, y, 0⟩).iter ∧ (whileLoop max x y ⟨x, y, 0⟩).iter ≤ max ∧
      iterations_at_point x y max = iteration_to_color n max := by
  obtain ⟨n, hn, hbefore, hafter, hres⟩ :=
    whileLoop_runs max x y (max - 0).toNat ⟨x, y, 0⟩ rfl
  have hn' : (n : Int) ≤ max := by
    have : ((max - 0).toNat : Int) = max := by simp; omega
    omega
  have hiter : (whileLoop max x y ⟨x, y, 0⟩).iter = n := by
    rw [hres, iterate_loopBody_iter]; simp
  refine ⟨n, hn', hbefore, hafter, hres, hiter, ?_, ?_, ?_⟩
  · rw [hiter]; exact Int.ofNat_nonneg n
  · rw [hiter]; exact hn'
  · unfold iterations_at_point; rw [hiter]

/-- The loop at the point `(-1, -1/2)` with `max = 1000`, in exact arithmetic. -/
theorem iterations_at_point_terminates_witness :
    ∃ n : Nat, (n : Int) ≤ 1000 ∧
      (∀ k : Nat, k < n → loopCond 1000 ((loopBody (-1 : ℚ) (-1 / 2))^[k] ⟨-1, -1 / 2, 0⟩) = true) ∧
      loopCond 1000 ((loopBody (-1 : ℚ) (-1 / 2))^[n] ⟨-1, -1 / 2, 0⟩) = false ∧
      whileLoop 1000 (-1 : ℚ) (-1 / 2) ⟨-1, -1 / 2, 0⟩
        = (loopBody (-1 : ℚ) (-1 / 2))^[n] ⟨-1, -1 / 2, 0⟩ ∧
      (whileLoop 1000 (-1 : ℚ) (-1 / 2) ⟨-1, -1 / 2, 0⟩).iter = n ∧
      0 ≤ (whileLoop 1000 (-1 : ℚ) (-1 / 2) ⟨-1, -1 / 2, 0⟩).iter ∧
      (whileLoop 1000 (-1 : ℚ) (-1 / 2) ⟨-1, -1 / 2, 0⟩).iter ≤ 1000 ∧
      iterations_at_point (-1 : ℚ) (-1 / 2) 1000 = iteration_to_color n 1000 :=
  iterations_at_point_terminates (-1 : ℚ) (-1 / 2) 1000 (by decide)

/-- C5, amended.  For every `max > 0` and every iteration count `0 ≤ i ≤ max` whose product
`255 * i` fits a 32-bit `int`, `iteration_to_color i max` is the color (gray, gray, gray, 0)
with `gray = floor(255*i/max)`, and `0 ≤ gray ≤ 255`; `i = max` gives 255 and `i = 0`
gives 0. -/
theorem iteration_to_color_gray (i max : Int) (hmax : 0 < max) (hi0 : 0 ≤ i) (hi : i ≤ max)
    (hprod : 255 * i ≤ 2147483647) :
    iteration_to_color i max =
        some (MAKE_RGBA ⌊(255 * i : ℚ) / (max : ℚ)⌋ ⌊(255 * i : ℚ) / (max : ℚ)⌋
          ⌊(255 * i : ℚ) / (max : ℚ)⌋ 0) ∧
      0 ≤ ⌊(255 * i : ℚ) / (max : ℚ)⌋ ∧ ⌊(255 * i : ℚ) / (max : ℚ)⌋ ≤ 255 ∧
      (i = max → ⌊(255 * i : ℚ) / (max : ℚ)⌋ = 255) ∧
      (i = 0 → ⌊(255 * i : ℚ) / (max : ℚ)⌋ = 0) := by
  have hfl : ⌊(255 * i : ℚ) / (max : ℚ)⌋ = (255 * i) / max := by
    have := floor_div_eq (H := 255 * i) hmax
    push_cast at this
    exact this
  rw [hfl]
  have h0 : 0 ≤ 255 * i := by omega
  refine ⟨?_, Int.ediv_nonneg h0 (le_of_lt hmax), ?_, ?_, ?_⟩
  · unfold iteration_to_color
    rw [wrap32_of_range (by omega) hprod, cdiv_of_pos h0 hmax]
  · have : 255 * i < (255 + 1) * max := by omega
    have := (Int.ediv_lt_iff_lt_mul hmax).2 this
    omega
  · intro h
    rw [h]
    exact Int.mul_ediv_cancel 255 (ne_of_gt hmax)
  · intro h
    rw [h]
    simp

/-- The color of a point that reaches `max = 1000`. -/
theorem iteration_to_color_gray_witness :
    iteration_to_color 1000 1000 =
        some (MAKE_RGBA ⌊(255 * (1000 : Int) : ℚ) / ((1000 : Int) : ℚ)⌋
          ⌊(255 * (1000 : Int) : ℚ) / ((1000 : Int) : ℚ)⌋
          ⌊(255 * (1000 : Int) : ℚ) / ((1000 : Int) : ℚ)⌋ 0) ∧
      0 ≤ ⌊(255 * (1000 : Int) : ℚ) / ((1000 : Int) : ℚ)⌋ ∧
      ⌊(255 * (1000 : Int) : ℚ) / ((1000 : Int) : ℚ)⌋ ≤ 255 ∧
      ((1000 : Int) = 1000 → ⌊(255 * (1000 : Int) : ℚ) / ((1000 : Int) : ℚ)⌋ = 255) ∧
      ((1000 : Int) = 0 → ⌊(255 * (1000 : Int) : ℚ) / ((1000 : Int) : ℚ)⌋ = 0) :=
  iteration_to_color_gray 1000 1000 (by decide) (by decide) (by decide) (by decide)

/-- C5 fails as stated: for `i = max = 10000000` the product `255 * i` wraps in 32-bit
arithmetic and the gray level is `-174`, while `floor(255*i/max) = 255`. -/
theorem iteration_to_color_overflow :
    (0 : Int) < 10000000 ∧ (10000000 : Int) ≤ 2147483647 ∧
      iteration_to_color 10000000 10000000 = some (MAKE_RGBA (-174) (-174) (-174) 0) ∧
      ⌊(255 * (10000000 : Int) : ℚ) / ((10000000 : Int) : ℚ)⌋ = 255 := by
  refine ⟨by decide, by decide, by decide, ?_⟩
  norm_num

/-- Exact rational arithmetic is exact on the fixed-point values. -/
theorem exactOnFixed_rat : ExactOnFixed fixedRat where
  add a b _ _ _ := by unfold fixedRat; push_cast; ring
  sub a b _ _ _ := by unfold fixedRat; push_cast; ring
  mul a b _ _ _ _ hdvd _ := by
    obtain ⟨c, hc⟩ := Int.dvd_of_emod_eq_zero hdvd
    have hq : (a : ℚ) * (b : ℚ) = 4294967296 * (c : ℚ) := by exact_mod_cast hc
    rw [hc, Int.mul_ediv_cancel_left c (by norm_num)]
    unfold fixedRat
    field_simp
    linarith
  div a b _ hb _ _ hdvd _ := by
    obtain ⟨c, hc⟩ := Int.dvd_of_emod_eq_zero hdvd
    have hq : (a : ℚ) * 4294967296 = (b : ℚ) * (c : ℚ) := by exact_mod_cast hc
    have hbq : (b : ℚ) ≠ 0 := by exact_mod_cast hb
    rw [hc, Int.mul_ediv_cancel_left c hb]
    unfold fixedRat
    field_simp
    linarith
  le a b _ _ := by
    show decide ((a : ℚ) / 4294967296 ≤ (b : ℚ) / 4294967296) = decide (a ≤ b)
    congr 1
    rw [div_le_div_iff_of_pos_right (by norm_num)]
    simp
  ofInt n _ := by
    show (n : ℚ) = ((n * 4294967296 : Int) : ℚ) / 4294967296
    push_cast
    field_simp

/-- C7, amended.  In every arithmetic that is exact on short binary fractions, the point
`(2.0, 2.0)` with `max = 100` fails the test `x*x + y*y <= 4` at once: the body of the loop
never runs, the iteration count handed to `iteration_to_color` is 0 and the color is
(0, 0, 0, 0). -/
theorem point_two_two_black {F : Type} [DoubleOps F] (ι : Int → F) (h : ExactOnFixed ι) :
    loopCond 100 (⟨DoubleOps.ofInt 2, DoubleOps.ofInt 2, 0⟩ : LoopState F) = false ∧
      (whileLoop 100 (DoubleOps.ofInt 2 : F) (DoubleOps.ofInt 2)
        ⟨DoubleOps.ofInt 2, DoubleOps.ofInt 2, 0⟩).iter = 0 ∧
      iterations_at_point (DoubleOps.ofInt 2 : F) (DoubleOps.ofInt 2) 100
        = some (MAKE_RGBA 0 0 0 0) := by
  have hc : loopCond 100 (⟨DoubleOps.ofInt 2, DoubleOps.ofInt 2, 0⟩ : LoopState F) = false := by
    simp (disch := norm_num [abs_lt]) only [loopCond, h.ofInt, h.add, h.mul, h.le]
    norm_num
  have hl := whileLoop_of_cond_false 100 (DoubleOps.ofInt 2 : F) (DoubleOps.ofInt 2) _ hc
  refine ⟨hc, by rw [hl], ?_⟩
  unfold iterations_at_point
  rw [hl]
  show iteration_to_color 0 100 = some (MAKE_RGBA 0 0 0 0)
  decide

/-- The point `(2, 2)` in exact arithmetic. -/
theorem point_two_two_black_witness :
    loopCond 100 (⟨DoubleOps.ofInt 2, DoubleOps.ofInt 2, 0⟩ : LoopState ℚ) = false ∧
      (whileLoop 100 (DoubleOps.ofInt 2 : ℚ) (DoubleOps.ofInt 2)
        ⟨DoubleOps.ofInt 2, DoubleOps.ofInt 2, 0⟩).iter = 0 ∧
      iterations_at_point (DoubleOps.ofInt 2 : ℚ) (DoubleOps.ofInt 2) 100
        = some (MAKE_RGBA 0 0 0 0) :=
  point_two_two_black fixedRat exactOnFixed_rat

/-- C7 fails as stated: at the point `(2, 2)` with `max = 100`, in exact arithmetic, the
iteration count is 0 and not 1, and the color is (0, 0, 0, 0) and not the gray level 2. -/
theorem point_two_two_not_one :
    (whileLoop 100 (2 : ℚ) 2 ⟨2, 2, 0⟩).iter = 0 ∧
      (whileLoop 100 (2 : ℚ) 2 ⟨2, 2, 0⟩).iter ≠ 1 ∧
      iterations_at_point (2 : ℚ) 2 100 = some (MAKE_RGBA 0 0 0 0) ∧
      iterations_at_point (2 : ℚ) 2 100 ≠ some (MAKE_RGBA 2 2 2 0) := by
  have hc : loopCond 100 (⟨2, 2, 0⟩ : LoopState ℚ) = false := by
    norm_num [loopCond, DoubleOps.le, DoubleOps.ofInt]
  have hl := whileLoop_of_cond_false 100 (2 : ℚ) 2 _ hc
  unfold iterations_at_point
  rw [hl]
  exact ⟨rfl, by decide, by decide, by decide⟩

end Mandel

namespace Mandel

/-! ## The pixel mapping -/

/-- C8.  In exact arithmetic, for every viewport with `xMin < xMax` and `yMin < yMax` and
every `width > 0` and `height > 0`, the mapping of `compute_image_thread` sends pixel (0, 0)
to `(xMin, yMin)` and pixel `(width-1, height-1)` to a point with `x < xMax` and
`y < yMax`. -/
theorem pixel_mapping_boundary (data : ThreadData ℚ) (width height : Int)
    (hx : data.xMin < data.xMax) (hy : data.yMin < data.yMax)
    (hw : 0 < width) (hh : 0 < height) :
    pixelX data width 0 = data.xMin ∧ pixelY data height 0 = data.yMin ∧
      pixelX data width (width - 1) < data.xMax ∧
      pixelY data height (height - 1) < data.yMax := by
  have hwq : (0 : ℚ) < (width : ℚ) := by exact_mod_cast hw
  have hhq : (0 : ℚ) < (height : ℚ) := by exact_mod_cast hh
  have key : ∀ (lo hi n : ℚ), lo < hi → 0 < n → lo + (n - 1) * (hi - lo) / n < hi := by
    intro lo hi n hlt hn
    have : (n - 1) * (hi - lo) / n < hi - lo := by
      rw [div_lt_iff₀ hn]
      nlinarith
    linarith
  refine ⟨?_, ?_, ?_, ?_⟩
  · simp [pixelX, DoubleOps.ofInt]
  · simp [pixelY, DoubleOps.ofInt]
  · have := key data.xMin data.xMax width hx hwq
    simpa [pixelX, DoubleOps.ofInt] using this
  · have := key data.yMin data.yMax height hy hhq
    simpa [pixelY, DoubleOps.ofInt] using this

/-- The default viewport `[-4, 4] × [-4, 4]` on a 500×500 image. -/
theorem pixel_mapping_boundary_witness :
    pixelX (⟨-4, 4, -4, 4, 1000, 0, 500⟩ : ThreadData ℚ) 500 0 = -4 ∧
      pixelY (⟨-4, 4, -4, 4, 1000, 0, 500⟩ : ThreadData ℚ) 500 0 = -4 ∧
      pixelX (⟨-4, 4, -4, 4, 1000, 0, 500⟩ : ThreadData ℚ) 500 (500 - 1) < 4 ∧
      pixelY (⟨-4, 4, -4, 4, 1000, 0, 500⟩ : ThreadData ℚ) 500 (500 - 1) < 4 :=
  pixel_mapping_boundary ⟨-4, 4, -4, 4, 1000, 0, 500⟩ 500 500
    (by norm_num) (by norm_num) (by decide) (by decide)

/-! ## The known example: the center pixel of a 3×3 image -/

section
variable {F : Type} [DoubleOps F]

/-- The viewport of the known example and the point of its center pixel. -/
theorem center_pixel_point (ι : Int → F) (h : ExactOnFixed ι) (n k : Int) :
    (thread_data (centerCfg ι n) k).xMin = ι (-8589934592) ∧
    (thread_data (centerCfg ι n) k).xMax = ι 4294967296 ∧
    (thread_data (centerCfg ι n) k).yMin = ι (-6442450944) ∧
    (thread_data (centerCfg ι n) k).yMax = ι 6442450944 ∧
    pixelX (thread_data (centerCfg ι n) k) 3 1 = ι (-4294967296) ∧
    pixelY (thread_data (centerCfg ι n) k) 3 1 = ι (-2147483648) := by
  refine ⟨?_, ?_, ?_, ?_, ?_, ?_⟩ <;>
  · simp (disch := norm_num [abs_lt]) only [pixelX, pixelY, thread_data, centerCfg, h.ofInt,
      h.add, h.sub, h.mul, h.div]
    norm_num

/-- The orbit of the point `(-1, -1/2)`: four executions of the loop body. -/
theorem center_orbit (ι : Int → F) (h : ExactOnFixed ι) :
    loopBody (ι (-4294967296)) (ι (-2147483648)) ⟨ι (-4294967296), ι (-2147483648), 0⟩
        = ⟨ι (-1073741824), ι 2147483648, 1⟩ ∧
    loopBody (ι (-4294967296)) (ι (-2147483648)) ⟨ι (-1073741824), ι 2147483648, 1⟩
        = ⟨ι (-5100273664), ι (-3221225472), 2⟩ ∧
    loopBody (ι (-4294967296)) (ι (-2147483648)) ⟨ι (-5100273664), ι (-3221225472), 2⟩
        = ⟨ι (-654311424), ι 5502926848, 3⟩ ∧
    loopBody (ι (-4294967296)) (ι (-2147483648)) ⟨ι (-654311424), ι 5502926848, 3⟩
        = ⟨ι (-11245912064), ι (-3824156672), 4⟩ := by
  refine ⟨?_, ?_, ?_, ?_⟩ <;>
  · simp (disch := norm_num [abs_lt]) only [loopBody, h.ofInt, h.add, h.sub, h.mul, h.div]
    norm_num

/-- The loop test along the orbit of `(-1, -1/2)`: true four times, then false. -/
theorem center_tests (ι : Int → F) (h : ExactOnFixed ι) :
    loopCond 1000 (⟨ι (-4294967296), ι (-2147483648), 0⟩ : LoopState F) = true ∧
    loopCond 1000 (⟨ι (-1073741824), ι 2147483648, 1⟩ : LoopState F) = true ∧
    loopCond 1000 (⟨ι (-5100273664), ι (-3221225472), 2⟩ : LoopState F) = true ∧
    loopCond 1000 (⟨ι (-654311424), ι 5502926848, 3⟩ : LoopState F) = true ∧
    loopCond 1000 (⟨ι (-11245912064), ι (-3824156672), 4⟩ : LoopState F) = false := by
  refine ⟨?_, ?_, ?_, ?_, ?_⟩ <;>
  · simp (disch := norm_num [abs_lt]) only [loopCond, h.ofInt, h.add, h.sub, h.mul, h.div, h.le]
    norm_num

theorem center_loop (ι : Int → F) (h : ExactOnFixed ι) :
    whileLoop 1000 (ι (-4294967296)) (ι (-2147483648)) ⟨ι (-4294967296), ι (-2147483648), 0⟩
      = ⟨ι (-11245912064), ι (-3824156672), 4⟩ := by
  obtain ⟨b0, b1, b2, b3⟩ := center_orbit ι h
  obtain ⟨c0, c1, c2, c3, c4⟩ := center_tests ι h
  rw [whileLoop_of_cond_true _ _ _ _ c0, b0, whileLoop_of_cond_true _ _ _ _ c1, b1,
    whileLoop_of_cond_true _ _ _ _ c2, b2, whileLoop_of_cond_true _ _ _ _ c3, b3,
    whileLoop_of_cond_false _ _ _ _ c4]

end

end Mandel

namespace Mandel

/-! ## The counting loop: lemmas -/

theorem forLoop_unfold {σ : Type} (body : Int → σ → Option σ) (hi lo : Int) (s : σ) :
    forLoop body hi lo s =
      if lo < hi then
        match body lo s with
        | none => none
        | some s' => forLoop body hi (lo + 1) s'
      else some s := by
  rw [forLoop]

theorem forLoop_of_ge {σ : Type} (body : Int → σ → Option σ) {hi lo : Int} (h : hi ≤ lo)
    (s : σ) : forLoop body hi lo s = some s := by
  rw [forLoop_unfold, if_neg (by omega)]

theorem forLoop_step {σ : Type} (body : Int → σ → Option σ) {hi lo : Int} (h : lo < hi)
    (s : σ) : forLoop body hi lo s = (body lo s).bind (forLoop body hi (lo + 1)) := by
  rw [forLoop_unfold, if_pos h]
  cases body lo s <;> rfl

/-- A loop over `[lo, hi)` is the loop over `[lo, mid)` followed by the loop over
`[mid, hi)`. -/
theorem forLoop_split {σ : Type} (body : Int → σ → Option σ) (lo mid hi : Int)
    (h1 : lo ≤ mid) (h2 : mid ≤ hi) (s : σ) :
    forLoop body hi lo s = (forLoop body mid lo s).bind (forLoop body hi mid) := by
  obtain ⟨n, hn⟩ : ∃ n : Nat, (mid - lo).toNat = n := ⟨_, rfl⟩
  induction n generalizing lo s with
  | zero =>
    have : lo = mid := by omega
    subst this
    rw [forLoop_of_ge body le_rfl s]
    rfl
  | succ n ih =>
    have hlt : lo < mid := by omega
    rw [forLoop_step body (lt_of_lt_of_le hlt h2), forLoop_step body hlt]
    cases body lo s with
    | none => rfl
    | some s' => exact ih (lo + 1) (by omega) s' (by omega)

theorem forLoop_last {σ : Type} (body : Int → σ → Option σ) {lo hi : Int} (h : lo < hi)
    (s : σ) : forLoop body hi lo s = (forLoop body (hi - 1) lo s).bind (body (hi - 1)) := by
  rw [forLoop_split body lo (hi - 1) hi (by omega) (by omega)]
  congr 1
  funext t
  rw [forLoop_step body (show hi - 1 < hi by omega)]
  cases body (hi - 1) t with
  | none => rfl
  | some t' => exact forLoop_of_ge body (by omega) t'

/-- A loop whose body never fails does not fail, and an invariant indexed by the loop
counter holds at the end. -/
theorem forLoop_total {σ : Type} (body : Int → σ → Option σ) (P : Int → σ → Prop)
    (lo hi : Int) (hle : lo ≤ hi)
    (hbody : ∀ i s, lo ≤ i → i < hi → P i s → ∃ s', body i s = some s' ∧ P (i + 1) s')
    (s : σ) (h0 : P lo s) : ∃ s', forLoop body hi lo s = some s' ∧ P hi s' := by
  obtain ⟨n, hn⟩ : ∃ n : Nat, (hi - lo).toNat = n := ⟨_, rfl⟩
  induction n generalizing lo s with
  | zero =>
    have : lo = hi := by omega
    subst this
    exact ⟨s, forLoop_of_ge body le_rfl s, h0⟩
  | succ n ih =>
    have hlt : lo < hi := by omega
    obtain ⟨s1, hs1, hP1⟩ := hbody lo s le_rfl hlt h0
    obtain ⟨s2, hs2, hP2⟩ := ih (lo + 1) (by omega)
      (fun i t hi1 hi2 hP => hbody i t (by omega) hi2 hP) s1 hP1 (by omega)
    refine ⟨s2, ?_, hP2⟩
    rw [forLoop_step body hlt, hs1]
    exact hs2

/-- An invariant of the body that holds at the start holds for every result of the loop. -/
theorem forLoop_invariant {σ : Type} (body : Int → σ → Option σ) (P : σ → Prop)
    (lo hi : Int)
    (hbody : ∀ i s s', lo ≤ i → i < hi → P s → body i s = some s' → P s')
    (s s' : σ) (h0 : P s) (h : forLoop body hi lo s = some s') : P s' := by
  obtain ⟨n, hn⟩ : ∃ n : Nat, (hi - lo).toNat = n := ⟨_, rfl⟩
  induction n generalizing lo s with
  | zero =>
    rw [forLoop_of_ge body (by omega)] at h
    cases h
    exact h0
  | succ n ih =>
    have hlt : lo < hi := by omega
    rw [forLoop_step body hlt] at h
    cases hb : body lo s with
    | none => rw [hb] at h; cases h
    | some s1 =>
      rw [hb] at h
      exact ih (lo + 1) (fun i t t' hi1 hi2 hP => hbody i t t' (by omega) hi2 hP) s1
        (hbody lo s s1 le_rfl hlt h0 hb) h (by omega)

/-- Two bodies that agree on the range of the loop give the same loop. -/
theorem forLoop_congr {σ : Type} (body body' : Int → σ → Option σ) (lo hi : Int)
    (hbody : ∀ i s, lo ≤ i → i < hi → body i s = body' i s) (s : σ) :
    forLoop body hi lo s = forLoop body' hi lo s := by
  obtain ⟨n, hn⟩ : ∃ n : Nat, (hi - lo).toNat = n := ⟨_, rfl⟩
  induction n generalizing lo s with
  | zero => rw [forLoop_of_ge body (by omega), forLoop_of_ge body' (by omega)]
  | succ n ih =>
    have hlt : lo < hi := by omega
    rw [forLoop_step body hlt, forLoop_step body' hlt, hbody lo s le_rfl hlt]
    cases body' lo s with
    | none => rfl
    | some s1 => exact ih (lo + 1) (fun i t hi1 hi2 => hbody i t (by omega) hi2) s1 (by omega)

end Mandel

namespace Mandel

/-! ## The worker: lemmas -/

section
variable {F : Type} [DoubleOps F]

/-- A pixel step that succeeds sets its pixel to a gray color. -/
theorem pixelStep_shape {data : ThreadData F} {w h j i : Int} {bm bm' : bitmap}
    (hs : pixelStep data w h j i bm = some bm') :
    ∃ g, bm' = bitmap_set bm i j (MAKE_RGBA g g g 0) := by
  unfold pixelStep at hs
  simp only at hs
  cases hc : iterations_at_point (pixelX data w i) (pixelY data h j) data.maxIterations with
  | none => rw [hc] at hs; cases hs
  | some c =>
    rw [hc] at hs
    obtain ⟨g, hg⟩ := iteration_to_color_gray_of_some hc
    cases hs
    exact ⟨g, by rw [hg]⟩

/-- For a positive iteration bound a pixel step does not trap. -/
theorem pixelStep_total (data : ThreadData F) (w h j i : Int) (bm : bitmap)
    (hmax : 0 < data.maxIterations) : ∃ bm', pixelStep data w h j i bm = some bm' := by
  obtain ⟨g, hg⟩ := iteration_to_color_of_pos
    (whileLoop data.maxIterations (pixelX data w i) (pixelY data h j)
      ⟨pixelX data w i, pixelY data h j, 0⟩).iter hmax
  refine ⟨bitmap_set bm i j (MAKE_RGBA g g g 0), ?_⟩
  unfold pixelStep iterations_at_point
  simp only
  rw [hg]

/-- The loop over the pixels of row `j` keeps the size of the bitmap and every pixel of
the other rows. -/
theorem rowLoop_frame {data : ThreadData F} {w h j : Int} {bm bm' : bitmap}
    (hs : forLoop (pixelStep data w h j) w 0 bm = some bm') :
    bm'.width = bm.width ∧ bm'.height = bm.height ∧
      ∀ a b, b ≠ j → bm'.data a b = bm.data a b := by
  refine forLoop_invariant (pixelStep data w h j)
    (fun t => t.width = bm.width ∧ t.height = bm.height ∧
      ∀ a b, b ≠ j → t.data a b = bm.data a b) 0 w ?_ bm bm' ⟨rfl, rfl, fun _ _ _ => rfl⟩ hs
  intro i s s' _ _ hP hstep
  obtain ⟨g, hg⟩ := pixelStep_shape hstep
  subst hg
  refine ⟨hP.1, hP.2.1, ?_⟩
  intro a b hb
  rw [← hP.2.2 a b hb]
  show (if a = i ∧ b = j then MAKE_RGBA g g g 0 else s.data a b) = s.data a b
  rw [if_neg (fun hab => hb hab.2)]

/-- The function `compute_image_thread` keeps the size of the bitmap and every pixel of the rows
outside the band of the worker. -/
theorem compute_image_thread_frame {data : ThreadData F} {bm bm' : bitmap}
    (hs : compute_image_thread data bm = some bm') :
    bm'.width = bm.width ∧ bm'.height = bm.height ∧
      ∀ a b, (b < data.startRow ∨ data.endRow ≤ b) → bm'.data a b = bm.data a b := by
  unfold compute_image_thread at hs
  refine forLoop_invariant _
    (fun t => t.width = bm.width ∧ t.height = bm.height ∧
      ∀ a b, (b < data.startRow ∨ data.endRow ≤ b) → t.data a b = bm.data a b)
    data.startRow data.endRow ?_ bm bm' ⟨rfl, rfl, fun _ _ _ => rfl⟩ hs
  intro j s s' hj1 hj2 hP hrow
  obtain ⟨f1, f2, f3⟩ := rowLoop_frame hrow
  refine ⟨f1.trans hP.1, f2.trans hP.2.1, ?_⟩
  intro a b hb
  rw [f3 a b (by omega)]
  exact hP.2.2 a b hb

/-- For a positive iteration bound `compute_image_thread` does not trap. -/
theorem compute_image_thread_total (data : ThreadData F) (bm : bitmap)
    (hmax : 0 < data.maxIterations) : ∃ bm', compute_image_thread data bm = some bm' := by
  unfold compute_image_thread
  by_cases hle : data.startRow ≤ data.endRow
  · obtain ⟨bm', h, _⟩ := forLoop_total
      (fun j => forLoop (pixelStep data (bitmap_width bm) (bitmap_height bm) j)
        (bitmap_width bm) 0)
      (fun _ _ => True) data.startRow data.endRow hle
      (fun j s _ _ _ => by
        by_cases hw : 0 ≤ bitmap_width bm
        · obtain ⟨s', hs', _⟩ := forLoop_total
            (pixelStep data (bitmap_width bm) (bitmap_height bm) j) (fun _ _ => True)
            0 (bitmap_width bm) hw
            (fun i t _ _ _ => by
              obtain ⟨t', ht'⟩ := pixelStep_total data (bitmap_width bm) (bitmap_height bm)
                j i t hmax
              exact ⟨t', ht', trivial⟩) s trivial
          exact ⟨s', hs', trivial⟩
        · exact ⟨s, forLoop_of_ge _ (by omega) s, trivial⟩) bm trivial
    exact ⟨bm', h⟩
  · exact ⟨bm, forLoop_of_ge _ (by omega) bm⟩

/-- A worker with an empty band returns the bitmap unchanged. -/
theorem compute_image_thread_of_empty (data : ThreadData F) (bm : bitmap)
    (h : data.endRow ≤ data.startRow) : compute_image_thread data bm = some bm := by
  unfold compute_image_thread
  exact forLoop_of_ge _ h bm

/-- The rows `[a, c)` are the rows `[a, b)` followed by the rows `[b, c)`. -/
theorem compute_image_thread_append (cfg : Config F) (a b c : Int) (hab : a ≤ b) (hbc : b ≤ c)
    (bm : bitmap) :
    compute_image_thread (rowsThread cfg a c) bm =
      (compute_image_thread (rowsThread cfg a b) bm).bind
        (compute_image_thread (rowsThread cfg b c)) := by
  have key : compute_image_thread (rowsThread cfg a c) bm =
      (compute_image_thread (rowsThread cfg a b) bm).bind
        (forLoop (fun j => forLoop (pixelStep (rowsThread cfg b c) (bitmap_width bm)
          (bitmap_height bm) j) (bitmap_width bm) 0) c b) :=
    forLoop_split _ a b c hab hbc bm
  rw [key]
  cases h1 : compute_image_thread (rowsThread cfg a b) bm with
  | none => rfl
  | some bm1 =>
    obtain ⟨f1, f2, _⟩ := compute_image_thread_frame h1
    show forLoop _ c b bm1 = compute_image_thread (rowsThread cfg b c) bm1
    unfold compute_image_thread bitmap_width bitmap_height
    rw [f1, f2]
    rfl

/-! ## The main program: lemmas -/

theorem thread_data_eq_rowsThread (cfg : Config F) (i : Int) :
    thread_data cfg i =
      rowsThread cfg (startRow i cfg.image_height cfg.numberOfThreads)
        (endRow i cfg.image_height cfg.numberOfThreads) := rfl

/-- The first `n` workers render the rows below the first row of worker `n`. -/
theorem workers_prefix (cfg : Config F) (hH : 0 ≤ cfg.image_height)
    (hW : 0 < cfg.numberOfThreads)
    (hWH : cfg.numberOfThreads * cfg.image_height ≤ 2147483647) (bm : bitmap) :
    ∀ n : Nat, (n : Int) ≤ cfg.numberOfThreads →
      forLoop (launch cfg) n 0 { bm := bm, created := 0 } =
        (compute_image_thread
          (rowsThread cfg 0 (startRow n cfg.image_height cfg.numberOfThreads)) bm).map
          (fun b => { bm := b, created := n }) := by
  intro n
  induction n with
  | zero =>
    intro _
    rw [forLoop_of_ge _ (by simp), compute_image_thread_of_empty _ _ (by
      show startRow ((0 : Nat) : Int) _ _ ≤ 0
      rw [Nat.cast_zero, startRow_zero])]
    rfl
  | succ n ih =>
    intro hn
    have hn' : (n : Int) ≤ cfg.numberOfThreads := by push_cast at hn; omega
    have hlast := forLoop_last (launch cfg) (show (0 : Int) < ((n + 1 : Nat) : Int) by
      push_cast; omega) { bm := bm, created := 0 }
    rw [show ((n + 1 : Nat) : Int) - 1 = (n : Int) by push_cast; omega, ih hn'] at hlast
    rw [hlast]
    have happ := compute_image_thread_append cfg 0
      (startRow n cfg.image_height cfg.numberOfThreads)
      (startRow ((n + 1 : Nat) : Int) cfg.image_height cfg.numberOfThreads)
      (by
        have := startRow_mono hH hW hWH le_rfl (Int.ofNat_nonneg n) hn'
        rwa [startRow_zero] at this)
      (startRow_mono hH hW hWH (Int.ofNat_nonneg n) (by push_cast; omega) hn) bm
    rw [happ]
    cases h1 : compute_image_thread
        (rowsThread cfg 0 (startRow n cfg.image_height cfg.numberOfThreads)) bm with
    | none => rfl
    | some bm1 =>
      show launch cfg n { bm := bm1, created := n } = _
      unfold launch
      rw [thread_data_eq_rowsThread, endRow_eq_startRow_succ]
      show _ = (compute_image_thread (rowsThread cfg _ _) bm1).map _
      rw [show ((n + 1 : Nat) : Int) = (n : Int) + 1 by push_cast; rfl]
      cases compute_image_thread (rowsThread cfg
        (startRow n cfg.image_height cfg.numberOfThreads)
        (startRow (n + 1) cfg.image_height cfg.numberOfThreads)) bm1 with
      | none => rfl
      | some bm2 => simp

end
end Mandel

namespace Mandel

/-- An invariant indexed by the loop counter holds, with the final counter, for every result
of the loop. -/
theorem forLoop_indexed {σ : Type} (body : Int → σ → Option σ) (P : Int → σ → Prop)
    (lo hi : Int) (hle : lo ≤ hi)
    (hbody : ∀ i s s', lo ≤ i → i < hi → P i s → body i s = some s' → P (i + 1) s')
    (s s' : σ) (h0 : P lo s) (h : forLoop body hi lo s = some s') : P hi s' := by
  obtain ⟨n, hn⟩ : ∃ n : Nat, (hi - lo).toNat = n := ⟨_, rfl⟩
  induction n generalizing lo s with
  | zero =>
    have : lo = hi := by omega
    subst this
    rw [forLoop_of_ge body le_rfl] at h
    cases h
    exact h0
  | succ n ih =>
    have hlt : lo < hi := by omega
    rw [forLoop_step body hlt] at h
    cases hb : body lo s with
    | none => rw [hb] at h; cases h
    | some s1 =>
      rw [hb] at h
      exact ih (lo + 1) (by omega)
        (fun i t t' hi1 hi2 hP => hbody i t t' (by omega) hi2 hP) s1
        (hbody lo s s1 le_rfl hlt h0 hb) h (by omega)

section
variable {F : Type} [DoubleOps F]

/-- A pixel step that succeeds stores the color of its point. -/
theorem pixelStep_color {data : ThreadData F} {w h j i : Int} {bm bm' : bitmap}
    (hs : pixelStep data w h j i bm = some bm') :
    ∃ c, iterations_at_point (pixelX data w i) (pixelY data h j) data.maxIterations = some c ∧
      bm' = bitmap_set bm i j c := by
  unfold pixelStep at hs
  simp only at hs
  cases hc : iterations_at_point (pixelX data w i) (pixelY data h j) data.maxIterations with
  | none => rw [hc] at hs; cases hs
  | some c =>
    rw [hc] at hs
    cases hs
    exact ⟨c, rfl, rfl⟩

/-- After the loop over the pixels of row `j`, every pixel of the row holds the color of its
point. -/
theorem rowLoop_pixel {data : ThreadData F} {w h j : Int} {bm bm' : bitmap}
    (hs : forLoop (pixelStep data w h j) w 0 bm = some bm') (i : Int) (hi0 : 0 ≤ i)
    (hi : i < w) :
    some (bm'.data i j) =
      iterations_at_point (pixelX data w i) (pixelY data h j) data.maxIterations := by
  have hP := forLoop_indexed (pixelStep data w h j)
    (fun n t => ∀ a, 0 ≤ a → a < n → some (t.data a j) =
      iterations_at_point (pixelX data w a) (pixelY data h j) data.maxIterations)
    0 w (by omega) ?_ bm bm' (fun a h1 h2 => by omega) hs
  · exact hP i hi0 hi
  · intro n t t' _ _ hPt hstep a ha0 ha
    obtain ⟨c, hc, ht'⟩ := pixelStep_color hstep
    subst ht'
    by_cases han : a = n
    · subst han
      rw [hc]
      show some (if a = a ∧ j = j then c else t.data a j) = some c
      rw [if_pos ⟨rfl, rfl⟩]
    · show some (if a = n ∧ j = j then c else t.data a j) = _
      rw [if_neg (fun hab => han hab.1)]
      exact hPt a ha0 (by omega)

/-- After `compute_image_thread`, every pixel of the band of the worker holds the color of
its point. -/
theorem compute_image_thread_pixel {data : ThreadData F} {bm bm' : bitmap}
    (hs : compute_image_thread data bm = some bm') (i j : Int)
    (hj0 : data.startRow ≤ j) (hj : j < data.endRow) (hi0 : 0 ≤ i) (hi : i < bm.width) :
    some (bm'.data i j) =
      iterations_at_point (pixelX data bm.width i) (pixelY data bm.height j)
        data.maxIterations := by
  unfold compute_image_thread bitmap_width bitmap_height at hs
  have hP := forLoop_indexed
    (fun r => forLoop (pixelStep data bm.width bm.height r) bm.width 0)
    (fun n t => ∀ b, data.startRow ≤ b → b < n → some (t.data i b) =
      iterations_at_point (pixelX data bm.width i) (pixelY data bm.height b)
        data.maxIterations)
    data.startRow data.endRow (by omega) ?_ bm bm' (fun b h1 h2 => by omega) hs
  · exact hP j hj0 hj
  · intro n t t' _ _ hPt hrow b hb0 hb
    by_cases hbn : b = n
    · subst hbn
      exact rowLoop_pixel hrow i hi0 hi
    · obtain ⟨_, _, hframe⟩ := rowLoop_frame hrow
      rw [hframe i b hbn]
      exact hPt b hb0 (by omega)

end
end Mandel

namespace Mandel

section
variable {F : Type} [DoubleOps F]

/-- Without overflow, the workers of `main` together render the rows `[0, image_height)`,
as one worker with that band does. -/
theorem workers_full (cfg : Config F) (hW : 0 < cfg.numberOfThreads)
    (hlo : -2147483648 ≤ cfg.numberOfThreads * cfg.image_height)
    (hhi : cfg.numberOfThreads * cfg.image_height ≤ 2147483647) (bm : bitmap) :
    forLoop (launch cfg) cfg.numberOfThreads 0 { bm := bm, created := 0 } =
      (compute_image_thread (rowsThread cfg 0 cfg.image_height) bm).map
        (fun b => { bm := b, created := cfg.numberOfThreads }) := by
  by_cases hH : 0 ≤ cfg.image_height
  · have h := workers_prefix cfg hH hW hhi bm cfg.numberOfThreads.toNat (by omega)
    rw [show ((cfg.numberOfThreads.toNat : Nat) : Int) = cfg.numberOfThreads by omega,
      startRow_last hH hW hhi] at h
    exact h
  · have hH' : cfg.image_height ≤ 0 := by omega
    obtain ⟨st, hst, hP⟩ := forLoop_total (launch cfg)
      (fun i st => st = { bm := bm, created := i }) 0 cfg.numberOfThreads (le_of_lt hW)
      (fun i st hi0 hi1 hP => by
        subst hP
        refine ⟨{ bm := bm, created := i + 1 }, ?_, rfl⟩
        unfold launch
        rw [compute_image_thread_of_empty _ _
          (endRow_le_startRow_of_nonpos hH' hW hlo hi0 hi1)])
      { bm := bm, created := 0 } rfl
    rw [hst, hP, compute_image_thread_of_empty _ _ (show cfg.image_height ≤ 0 from hH')]
    rfl

/-- With a negative worker count the arrays of `main` have no defined behaviour. -/
theorem main_of_neg (cfg : Config F) (bitmap_save : bitmap → Bool)
    (hW : cfg.numberOfThreads < 0) : main cfg bitmap_save = none := by
  unfold main
  simp only
  rw [if_pos hW]

/-- With a worker count that is not negative, `main` runs the loop that creates the workers
and then saves the bitmap. -/
theorem main_of_nonneg (cfg : Config F) (bitmap_save : bitmap → Bool)
    (hW : 0 ≤ cfg.numberOfThreads) :
    main cfg bitmap_save =
      match forLoop (launch cfg) cfg.numberOfThreads 0
        { bm := bitmap_reset (bitmap_create cfg.image_width cfg.image_height)
            (MAKE_RGBA 0 0 255 0), created := 0 } with
      | none => none
      | some st =>
        if bitmap_save st.bm then
          some { created := st.created, saved := st.bm, errorReported := false, status := 0 }
        else
          some { created := st.created, saved := st.bm, errorReported := true, status := 1 } := by
  unfold main
  simp only
  rw [if_neg (by omega)]

/-- The bitmap that `main` saves is the bitmap left by the loop that creates the workers. -/
theorem main_saved (cfg : Config F) (bitmap_save : bitmap → Bool)
    (hW : 0 ≤ cfg.numberOfThreads) :
    (main cfg bitmap_save).map RunResult.saved =
      (forLoop (launch cfg) cfg.numberOfThreads 0
        { bm := bitmap_reset (bitmap_create cfg.image_width cfg.image_height)
            (MAKE_RGBA 0 0 255 0), created := 0 }).map MainState.bm := by
  rw [main_of_nonneg cfg bitmap_save hW]
  cases forLoop (launch cfg) cfg.numberOfThreads 0
      { bm := bitmap_reset (bitmap_create cfg.image_width cfg.image_height)
          (MAKE_RGBA 0 0 255 0), created := 0 } with
  | none => rfl
  | some st => cases h : bitmap_save st.bm <;> simp [h]

/-- Without overflow, the bitmap that `main` saves is the one a single worker with the band
`[0, image_height)` makes of the sentinel-filled bitmap. -/
theorem main_saved_eq_rows (cfg : Config F) (bitmap_save : bitmap → Bool)
    (hW : 0 < cfg.numberOfThreads)
    (hlo : -2147483648 ≤ cfg.numberOfThreads * cfg.image_height)
    (hhi : cfg.numberOfThreads * cfg.image_height ≤ 2147483647) :
    (main cfg bitmap_save).map RunResult.saved =
      compute_image_thread (rowsThread cfg 0 cfg.image_height)
        (bitmap_reset (bitmap_create cfg.image_width cfg.image_height)
          (MAKE_RGBA 0 0 255 0)) := by
  rw [main_saved cfg bitmap_save (le_of_lt hW), workers_full cfg hW hlo hhi]
  cases compute_image_thread (rowsThread cfg 0 cfg.image_height)
    (bitmap_reset (bitmap_create cfg.image_width cfg.image_height) (MAKE_RGBA 0 0 255 0)) with
  | none => rfl
  | some b => rfl

/-- For a positive iteration bound the loop that creates the workers does not trap; it
creates `numberOfThreads` workers, or none when that count is not positive. -/
theorem workers_total (cfg : Config F) (hmax : 0 < cfg.max) (bm : bitmap) :
    ∃ st, forLoop (launch cfg) cfg.numberOfThreads 0 { bm := bm, created := 0 } = some st ∧
      st.created = max cfg.numberOfThreads 0 := by
  by_cases hW : 0 ≤ cfg.numberOfThreads
  · obtain ⟨st, hst, hP⟩ := forLoop_total (launch cfg) (fun i st => st.created = i)
      0 cfg.numberOfThreads hW
      (fun i st _ _ hP => by
        obtain ⟨b, hb⟩ := compute_image_thread_total (thread_data cfg i) st.bm hmax
        refine ⟨{ bm := b, created := st.created + 1 }, ?_, by rw [← hP]⟩
        unfold launch
        rw [hb])
      { bm := bm, created := 0 } rfl
    exact ⟨st, hst, by rw [hP, max_eq_left hW]⟩
  · exact ⟨_, forLoop_of_ge _ (by omega) _, by rw [max_eq_right (by omega)]⟩

/-- When its band and the width are not empty, a worker sets the last pixel of its last row
to a gray color. -/
theorem compute_image_thread_last_pixel {data : ThreadData F} {bm bm' : bitmap}
    (hrows : data.startRow < data.endRow) (hw : 0 < bm.width)
    (hs : compute_image_thread data bm = some bm') :
    ∃ g, bm'.data (bm.width - 1) (data.endRow - 1) = MAKE_RGBA g g g 0 := by
  unfold compute_image_thread bitmap_width bitmap_height at hs
  rw [forLoop_last _ hrows] at hs
  cases h1 : forLoop (fun j => forLoop (pixelStep data bm.width bm.height j) bm.width 0)
      (data.endRow - 1) data.startRow bm with
  | none => rw [h1] at hs; cases hs
  | some bm1 =>
    rw [h1] at hs
    have hs' : forLoop (pixelStep data bm.width bm.height (data.endRow - 1)) bm.width 0 bm1
        = some bm' := hs
    rw [forLoop_last _ hw] at hs'
    cases h2 : forLoop (pixelStep data bm.width bm.height (data.endRow - 1))
        (bm.width - 1) 0 bm1 with
    | none => rw [h2] at hs'; cases hs'
    | some bm2 =>
      rw [h2] at hs'
      obtain ⟨g, hg⟩ := pixelStep_shape (show pixelStep data bm.width bm.height
        (data.endRow - 1) (bm.width - 1) bm2 = some bm' from hs')
      refine ⟨g, ?_⟩
      rw [hg]
      show (if bm.width - 1 = bm.width - 1 ∧ data.endRow - 1 = data.endRow - 1
        then MAKE_RGBA g g g 0 else bm2.data (bm.width - 1) (data.endRow - 1)) = _
      rw [if_pos ⟨rfl, rfl⟩]

/-- For a positive iteration bound and a worker count that is not negative `main` reaches
its end, and it has created `numberOfThreads` workers. -/
theorem main_total (cfg : Config F) (bitmap_save : bitmap → Bool) (hmax : 0 < cfg.max)
    (hW : 0 ≤ cfg.numberOfThreads) :
    ∃ r, main cfg bitmap_save = some r ∧ r.created = cfg.numberOfThreads := by
  obtain ⟨st, hst, hc⟩ := workers_total cfg hmax
    (bitmap_reset (bitmap_create cfg.image_width cfg.image_height) (MAKE_RGBA 0 0 255 0))
  rw [max_eq_left hW] at hc
  rw [main_of_nonneg cfg bitmap_save hW, hst]
  cases hs : bitmap_save st.bm
  · refine ⟨{ created := st.created, saved := st.bm, errorReported := true, status := 1 },
      ?_, hc⟩
    show (if bitmap_save st.bm = true then _ else _) = _
    rw [hs]
    rfl
  · refine ⟨{ created := st.created, saved := st.bm, errorReported := false, status := 0 },
      ?_, hc⟩
    show (if bitmap_save st.bm = true then _ else _) = _
    rw [hs]
    rfl

/-- Without overflow and for a positive iteration bound, every pixel of the image that
`main` saves holds the color of its point. -/
theorem main_pixel (cfg : Config F) (bitmap_save : bitmap → Bool) (hmax : 0 < cfg.max)
    (hW : 0 < cfg.numberOfThreads)
    (hlo : -2147483648 ≤ cfg.numberOfThreads * cfg.image_height)
    (hhi : cfg.numberOfThreads * cfg.image_height ≤ 2147483647) :
    ∃ r, main cfg bitmap_save = some r ∧
      ∀ i j, 0 ≤ i → i < cfg.image_width → 0 ≤ j → j < cfg.image_height →
        some (r.saved.data i j) =
          iterations_at_point (pixelX (thread_data cfg 0) cfg.image_width i)
            (pixelY (thread_data cfg 0) cfg.image_height j) cfg.max := by
  obtain ⟨r, hr, _⟩ := main_total cfg bitmap_save hmax (le_of_lt hW)
  refine ⟨r, hr, ?_⟩
  intro i j hi0 hi hj0 hj
  have hrows := main_saved_eq_rows cfg bitmap_save hW hlo hhi
  rw [hr] at hrows
  have hrows' : compute_image_thread (rowsThread cfg 0 cfg.image_height)
      (bitmap_reset (bitmap_create cfg.image_width cfg.image_height) (MAKE_RGBA 0 0 255 0))
      = some r.saved := hrows.symm
  exact compute_image_thread_pixel hrows' i j hj0 hj hi0 hi

end

/-! ## The main program: the claims -/

/-- C1, amended.  For every configuration (width, height, viewport, iteration bound, in
every arithmetic) and any two positive worker counts `W1` and `W2` whose products with the
height fit a 32-bit `int`, `main` hands the same image to `bitmap_save`, pixel for pixel:
the image that one worker with the band `[0, image_height)` makes of the sentinel-filled
bitmap (or both runs trap). -/
theorem render_independent_of_workers {F : Type} [DoubleOps F] (cfg : Config F)
    (W1 W2 : Int) (save1 save2 : bitmap → Bool) (h1 : 0 < W1) (h2 : 0 < W2)
    (hlo1 : -2147483648 ≤ W1 * cfg.image_height) (hhi1 : W1 * cfg.image_height ≤ 2147483647)
    (hlo2 : -2147483648 ≤ W2 * cfg.image_height) (hhi2 : W2 * cfg.image_height ≤ 2147483647) :
    (main { cfg with numberOfThreads := W1 } save1).map RunResult.saved =
        (main { cfg with numberOfThreads := W2 } save2).map RunResult.saved ∧
      (main { cfg with numberOfThreads := W1 } save1).map RunResult.saved =
        compute_image_thread (rowsThread cfg 0 cfg.image_height)
          (bitmap_reset (bitmap_create cfg.image_width cfg.image_height)
            (MAKE_RGBA 0 0 255 0)) := by
  have e1 := main_saved_eq_rows { cfg with numberOfThreads := W1 } save1 h1 hlo1 hhi1
  have e2 := main_saved_eq_rows { cfg with numberOfThreads := W2 } save2 h2 hlo2 hhi2
  exact ⟨e1.trans e2.symm, e1⟩

end Mandel

namespace Mandel

/-- C6, amended.  With center (-0.5, 0), scale 1.5 (so `xMin = -2`, `xMax = 1`,
`yMin = -1.5`, `yMax = 1.5`), `max = 1000` and a 3×3 image, in every arithmetic that is
exact on short binary fractions, `compute_image_thread` maps the center pixel
(`i = 1`, `j = 1`) to the point `(-1, -0.5)`; the loop of `iterations_at_point` leaves it
after 4 iterations (the point escapes), its color is (1, 1, 1, 0), and that is the color of
the pixel (1, 1) in the image that `main` saves. -/
theorem center_pixel_escapes {F : Type} [DoubleOps F] (ι : Int → F) (h : ExactOnFixed ι)
    (bitmap_save : bitmap → Bool) :
    ((thread_data (centerCfg ι 1) 0).xMin = ι (-8589934592) ∧
      (thread_data (centerCfg ι 1) 0).xMax = ι 4294967296 ∧
      (thread_data (centerCfg ι 1) 0).yMin = ι (-6442450944) ∧
      (thread_data (centerCfg ι 1) 0).yMax = ι 6442450944) ∧
    pixelX (thread_data (centerCfg ι 1) 0) 3 1 = ι (-4294967296) ∧
    pixelY (thread_data (centerCfg ι 1) 0) 3 1 = ι (-2147483648) ∧
    (whileLoop 1000 (ι (-4294967296)) (ι (-2147483648))
      ⟨ι (-4294967296), ι (-2147483648), 0⟩).iter = 4 ∧
    iterations_at_point (ι (-4294967296)) (ι (-2147483648)) 1000 = some (MAKE_RGBA 1 1 1 0) ∧
    ∃ r, main (centerCfg ι 1) bitmap_save = some r ∧ r.saved.data 1 1 = MAKE_RGBA 1 1 1 0 := by
  obtain ⟨v1, v2, v3, v4, px, py⟩ := center_pixel_point ι h 1 0
  have hloop := center_loop ι h
  have hcol : iterations_at_point (ι (-4294967296)) (ι (-2147483648)) 1000
      = some (MAKE_RGBA 1 1 1 0) := by
    unfold iterations_at_point
    rw [hloop]
    rfl
  refine ⟨⟨v1, v2, v3, v4⟩, px, py, by rw [hloop], hcol, ?_⟩
  obtain ⟨r, hr, hpix⟩ := main_pixel (centerCfg ι 1) bitmap_save
    (show (0 : Int) < 1000 by decide) (show (0 : Int) < 1 by decide)
    (show (-2147483648 : Int) ≤ 1 * 3 by decide) (show (1 : Int) * 3 ≤ 2147483647 by decide)
  refine ⟨r, hr, ?_⟩
  have h11 := hpix 1 1 (by decide) (show (1 : Int) < 3 by decide) (by decide)
    (show (1 : Int) < 3 by decide)
  have h11' : some (r.saved.data 1 1) =
      iterations_at_point (pixelX (thread_data (centerCfg ι 1) 0) 3 1)
        (pixelY (thread_data (centerCfg ι 1) 0) 3 1) 1000 := h11
  rw [px, py, hcol] at h11'
  exact Option.some.inj h11'

/-- The known example in exact arithmetic, with a save that succeeds. -/
theorem center_pixel_escapes_witness :
    ((thread_data (centerCfg fixedRat 1) 0).xMin = fixedRat (-8589934592) ∧
      (thread_data (centerCfg fixedRat 1) 0).xMax = fixedRat 4294967296 ∧
      (thread_data (centerCfg fixedRat 1) 0).yMin = fixedRat (-6442450944) ∧
      (thread_data (centerCfg fixedRat 1) 0).yMax = fixedRat 6442450944) ∧
    pixelX (thread_data (centerCfg fixedRat 1) 0) 3 1 = fixedRat (-4294967296) ∧
    pixelY (thread_data (centerCfg fixedRat 1) 0) 3 1 = fixedRat (-2147483648) ∧
    (whileLoop 1000 (fixedRat (-4294967296)) (fixedRat (-2147483648))
      ⟨fixedRat (-4294967296), fixedRat (-2147483648), 0⟩).iter = 4 ∧
    iterations_at_point (fixedRat (-4294967296)) (fixedRat (-2147483648)) 1000
      = some (MAKE_RGBA 1 1 1 0) ∧
    ∃ r, main (centerCfg fixedRat 1) (fun _ => true) = some r ∧
      r.saved.data 1 1 = MAKE_RGBA 1 1 1 0 :=
  center_pixel_escapes fixedRat exactOnFixed_rat (fun _ => true)

/-- C6 fails as stated: in exact arithmetic the center pixel of the known example is the
point `(-1, -1/2)`, its iteration count is 4 and not 1000, and in the image that `main` saves
the pixel (1, 1) is (1, 1, 1, 0) and not (255, 255, 255, 0). -/
theorem center_pixel_not_white :
    pixelX (thread_data (⟨-1 / 2, 0, 3 / 2, 3, 3, 1000, 1⟩ : Config ℚ) 0) 3 1 = -1 ∧
    pixelY (thread_data (⟨-1 / 2, 0, 3 / 2, 3, 3, 1000, 1⟩ : Config ℚ) 0) 3 1 = -1 / 2 ∧
    (whileLoop 1000 (-1 : ℚ) (-1 / 2) ⟨-1, -1 / 2, 0⟩).iter = 4 ∧
    (whileLoop 1000 (-1 : ℚ) (-1 / 2) ⟨-1, -1 / 2, 0⟩).iter ≠ 1000 ∧
    ∃ r, main (⟨-1 / 2, 0, 3 / 2, 3, 3, 1000, 1⟩ : Config ℚ) (fun _ => true) = some r ∧
      r.saved.data 1 1 = MAKE_RGBA 1 1 1 0 ∧ r.saved.data 1 1 ≠ MAKE_RGBA 255 255 255 0 := by
  have px : pixelX (thread_data (⟨-1 / 2, 0, 3 / 2, 3, 3, 1000, 1⟩ : Config ℚ) 0) 3 1 = -1 := by
    norm_num [pixelX, thread_data, DoubleOps.ofInt]
  have py : pixelY (thread_data (⟨-1 / 2, 0, 3 / 2, 3, 3, 1000, 1⟩ : Config ℚ) 0) 3 1
      = -1 / 2 := by
    norm_num [pixelY, thread_data, DoubleOps.ofInt]
  have hl : (whileLoop 1000 (-1 : ℚ) (-1 / 2) ⟨-1, -1 / 2, 0⟩).iter = 4 := by
    rw [whileLoop_of_cond_true _ _ _ _ (by norm_num [loopCond, DoubleOps.le, DoubleOps.ofInt]),
      whileLoop_of_cond_true _ _ _ _
        (by norm_num [loopCond, loopBody, DoubleOps.le, DoubleOps.ofInt]),
      whileLoop_of_cond_true _ _ _ _
        (by norm_num [loopCond, loopBody, DoubleOps.le, DoubleOps.ofInt]),
      whileLoop_of_cond_true _ _ _ _
        (by norm_num [loopCond, loopBody, DoubleOps.le, DoubleOps.ofInt]),
      whileLoop_of_cond_false _ _ _ _
        (by norm_num [loopCond, loopBody, DoubleOps.le, DoubleOps.ofInt])]
    norm_num [loopBody]
  refine ⟨px, py, hl, by rw [hl]; decide, ?_⟩
  obtain ⟨r, hr, hpix⟩ := main_pixel (⟨-1 / 2, 0, 3 / 2, 3, 3, 1000, 1⟩ : Config ℚ)
    (fun _ => true) (by decide) (by decide) (by decide) (by decide)
  have h11 := hpix 1 1 (by decide) (by decide) (by decide) (by decide)
  have h11' : some (r.saved.data 1 1) =
      iterations_at_point
        (pixelX (thread_data (⟨-1 / 2, 0, 3 / 2, 3, 3, 1000, 1⟩ : Config ℚ) 0) 3 1)
        (pixelY (thread_data (⟨-1 / 2, 0, 3 / 2, 3, 3, 1000, 1⟩ : Config ℚ) 0) 3 1) 1000 := h11
  rw [px, py] at h11'
  unfold iterations_at_point at h11'
  rw [hl, show iteration_to_color 4 1000 = some (MAKE_RGBA 1 1 1 0) by decide] at h11'
  have hval := Option.some.inj h11'
  exact ⟨r, hr, hval, by rw [hval]; decide⟩

end Mandel

namespace Mandel

/-- The render of a 500×500 image by 7 workers and by 500 workers. -/
theorem render_independent_of_workers_witness :
    (main { defaultCfg 500 500 1 with numberOfThreads := 7 } (fun _ => true)).map
          RunResult.saved =
        (main { defaultCfg 500 500 1 with numberOfThreads := 500 } (fun _ => true)).map
          RunResult.saved ∧
      (main { defaultCfg 500 500 1 with numberOfThreads := 7 } (fun _ => true)).map
          RunResult.saved =
        compute_image_thread (rowsThread (defaultCfg 500 500 1) 0
            (defaultCfg 500 500 1).image_height)
          (bitmap_reset (bitmap_create (defaultCfg 500 500 1).image_width
            (defaultCfg 500 500 1).image_height) (MAKE_RGBA 0 0 255 0)) :=
  render_independent_of_workers (defaultCfg 500 500 1) 7 500 (fun _ => true) (fun _ => true)
    (by decide) (by decide) (by decide) (by decide) (by decide) (by decide)

/-- Every band of 524288 rows between 4096 workers ends at or before row 524160. -/
theorem endRow_overflow_bound (k : Int) (hk0 : 0 ≤ k) (hk : k < 4096) :
    endRow k 524288 4096 ≤ 524160 := by
  by_cases hlast : k = 4095
  · subst hlast; decide
  · unfold endRow
    rw [wrap32_of_range (by omega) (by omega),
      Int.tdiv_eq_ediv (by omega) (by decide)]
    omega

/-- C1 fails as stated: for a 1×524288 image the product `4096 * 524288 = 2^31` wraps, the
last of 4096 workers gets an empty band and the rows from 524160 on keep the sentinel color,
whereas one worker renders them all: the two images differ at the pixel (0, 524287). -/
theorem render_depends_on_workers_overflow :
    (main { defaultCfg 1 524288 1 with numberOfThreads := 1 } (fun _ => true)).map
        RunResult.saved ≠
      (main { defaultCfg 1 524288 1 with numberOfThreads := 4096 } (fun _ => true)).map
        RunResult.saved := by
  -- one worker: the last pixel is gray
  have e1 := main_saved_eq_rows { defaultCfg 1 524288 1 with numberOfThreads := 1 }
    (fun _ => true) (by decide) (by decide) (by decide)
  obtain ⟨b1, hb1⟩ := compute_image_thread_total
    (rowsThread { defaultCfg 1 524288 1 with numberOfThreads := 1 } 0 524288)
    (bitmap_reset (bitmap_create 1 524288) (MAKE_RGBA 0 0 255 0)) (by decide)
  obtain ⟨g, hg⟩ := compute_image_thread_last_pixel (by decide) (by decide) hb1
  -- 4096 workers: the last pixel keeps the sentinel color
  have e2 := main_saved { defaultCfg 1 524288 1 with numberOfThreads := 4096 } (fun _ => true)
    (by decide)
  obtain ⟨st, hst, _⟩ := workers_total { defaultCfg 1 524288 1 with numberOfThreads := 4096 }
    (by decide) (bitmap_reset (bitmap_create 1 524288) (MAKE_RGBA 0 0 255 0))
  have hblue : st.bm.data 0 524287 = MAKE_RGBA 0 0 255 0 := by
    refine forLoop_invariant (launch { defaultCfg 1 524288 1 with numberOfThreads := 4096 })
      (fun t => t.bm.data 0 524287 = MAKE_RGBA 0 0 255 0) 0 4096 ?_ _ st rfl hst
    intro i s s' hi0 hi1 hP hl
    unfold launch at hl
    cases hc : compute_image_thread
        (thread_data { defaultCfg 1 524288 1 with numberOfThreads := 4096 } i) s.bm with
    | none => rw [hc] at hl; cases hl
    | some b =>
      rw [hc] at hl
      cases hl
      obtain ⟨_, _, hframe⟩ := compute_image_thread_frame hc
      have hend := endRow_overflow_bound i hi0 hi1
      show b.data 0 524287 = _
      rw [hframe 0 524287 (Or.inr (by
        show endRow i 524288 4096 ≤ 524287
        omega))]
      exact hP
  intro heq
  rw [e1, e2] at heq
  have hb1' : compute_image_thread
      (rowsThread { defaultCfg 1 524288 1 with numberOfThreads := 1 } 0
        ({ defaultCfg 1 524288 1 with numberOfThreads := 1 } : Config ℚ).image_height)
      (bitmap_reset (bitmap_create
        ({ defaultCfg 1 524288 1 with numberOfThreads := 1 } : Config ℚ).image_width
        ({ defaultCfg 1 524288 1 with numberOfThreads := 1 } : Config ℚ).image_height)
        (MAKE_RGBA 0 0 255 0)) = some b1 := hb1
  have hst' : forLoop (launch { defaultCfg 1 524288 1 with numberOfThreads := 4096 })
      ({ defaultCfg 1 524288 1 with numberOfThreads := 4096 } : Config ℚ).numberOfThreads 0
      { bm := bitmap_reset (bitmap_create
          ({ defaultCfg 1 524288 1 with numberOfThreads := 4096 } : Config ℚ).image_width
          ({ defaultCfg 1 524288 1 with numberOfThreads := 4096 } : Config ℚ).image_height)
          (MAKE_RGBA 0 0 255 0), created := 0 } = some st := hst
  rw [hb1', hst'] at heq
  have hbm : b1 = st.bm := by simpa using heq
  rw [hbm] at hg
  have hg' : st.bm.data 0 524287 = MAKE_RGBA g g g 0 := hg
  rw [hblue] at hg'
  have h1 := congrArg Color.red hg'
  have h2 := congrArg Color.blue hg'
  simp only [MAKE_RGBA] at h1 h2
  omega

/-- C9, amended.  A worker count of 0 is not reported as an error: `main` checks nothing,
creates no worker, hands the sentinel-filled bitmap to `bitmap_save`, and returns status 0
without a message when the save succeeds (status 1 with the message when it fails).  Negative
worker counts are left out: the arrays of `main` have no defined behaviour there. -/
theorem zero_workers_no_error {F : Type} [DoubleOps F] (cfg : Config F)
    (bitmap_save : bitmap → Bool) (h : cfg.numberOfThreads = 0) :
    main cfg bitmap_save =
      some
        { created := 0
          saved := bitmap_reset (bitmap_create cfg.image_width cfg.image_height)
            (MAKE_RGBA 0 0 255 0)
          errorReported := !bitmap_save (bitmap_reset
            (bitmap_create cfg.image_width cfg.image_height) (MAKE_RGBA 0 0 255 0))
          status := if bitmap_save (bitmap_reset
            (bitmap_create cfg.image_width cfg.image_height) (MAKE_RGBA 0 0 255 0)) = true
            then 0 else 1 } := by
  rw [main_of_nonneg cfg bitmap_save (le_of_eq h.symm), forLoop_of_ge _ (le_of_eq h)]
  cases hs : bitmap_save (bitmap_reset (bitmap_create cfg.image_width cfg.image_height)
    (MAKE_RGBA 0 0 255 0)) <;> simp [hs]

/-- The default 500×500 configuration with `-n 0`, when the save fails. -/
theorem zero_workers_no_error_witness :
    (defaultCfg 500 500 0).numberOfThreads = 0 ∧
    main (defaultCfg 500 500 0) (fun _ => false) =
      some
        { created := 0
          saved := bitmap_reset (bitmap_create (defaultCfg 500 500 0).image_width
            (defaultCfg 500 500 0).image_height) (MAKE_RGBA 0 0 255 0)
          errorReported := !(fun _ => false) (bitmap_reset
            (bitmap_create (defaultCfg 500 500 0).image_width
              (defaultCfg 500 500 0).image_height) (MAKE_RGBA 0 0 255 0))
          status := if (fun _ => false) (bitmap_reset
            (bitmap_create (defaultCfg 500 500 0).image_width
              (defaultCfg 500 500 0).image_height) (MAKE_RGBA 0 0 255 0)) = true
            then 0 else 1 } :=
  ⟨rfl, zero_workers_no_error (defaultCfg 500 500 0) (fun _ => false) rfl⟩

/-- C9 fails as stated: with `-n 0` and a save that succeeds, `main` reaches its end with
exit status 0, no error message and no worker created. -/
theorem zero_workers_success :
    (defaultCfg 500 500 0).numberOfThreads ≤ 0 ∧
    ∃ r, main (defaultCfg 500 500 0) (fun _ => true) = some r ∧
      r.status = 0 ∧ r.errorReported = false ∧ r.created = 0 := by
  refine ⟨by decide,
    { created := 0, saved := bitmap_reset (bitmap_create 500 500) (MAKE_RGBA 0 0 255 0),
      errorReported := false, status := 0 }, ?_, rfl, rfl, rfl⟩
  rw [main_of_nonneg _ _ (by decide), forLoop_of_ge _ (by decide)]
  rfl

section
variable {F : Type} [DoubleOps F]

end

end Mandel

namespace Mandel

/-! ## More workers than rows -/

/-- With more workers than rows and without overflow, a band has no row or one row. -/
theorem band_size_zero_or_one {k H W : Int} (hH : 0 ≤ H) (hHW : H < W)
    (hWH : W * H ≤ 2147483647) (hk0 : 0 ≤ k) (hk : k < W) :
    endRow k H W - startRow k H W = 0 ∨ endRow k H W - startRow k H W = 1 := by
  have hW : 0 < W := by omega
  have hfl : ⌊(H : ℚ) / (W : ℚ)⌋ = 0 := by
    rw [floor_div_eq hW]
    exact Int.ediv_eq_zero_of_lt hH hHW
  have hce := Int.ceil_le_floor_add_one ((H : ℚ) / (W : ℚ))
  have hfc := Int.floor_le_ceil ((H : ℚ) / (W : ℚ))
  rcases band_size hH hW hWH hk0 hk with h | h
  · left; rw [h, hfl]
  · rw [h]; omega

/-- Without overflow, the number of bands that hold a row is the number of rows. -/
theorem nonempty_bands_card {H W : Int} (hH : 0 ≤ H) (hHW : H < W)
    (hWH : W * H ≤ 2147483647) :
    (((Finset.range W.toNat).filter
      (fun k : Nat => startRow k H W < endRow k H W)).card : Int) = H := by
  have hW : 0 < W := by omega
  rw [Finset.card_filter]
  push_cast
  have hterm : ∀ k ∈ Finset.range W.toNat,
      (if startRow (k : Int) H W < endRow k H W then (1 : Int) else 0) =
        startRow ((k + 1 : Nat) : Int) H W - startRow (k : Int) H W := by
    intro k hk
    have hk' : (k : Int) < W := by
      have := Finset.mem_range.1 hk
      omega
    have h01 := band_size_zero_or_one hH hHW hWH (Int.ofNat_nonneg k) hk'
    rw [endRow_eq_startRow_succ] at h01 ⊢
    rw [show ((k + 1 : Nat) : Int) = (k : Int) + 1 by push_cast; rfl]
    rcases h01 with h | h
    · rw [if_neg (by omega)]; omega
    · rw [if_pos (by omega)]; omega
  rw [Finset.sum_congr rfl hterm,
    Finset.sum_range_sub (fun k : Nat => startRow (k : Int) H W) W.toNat,
    show ((W.toNat : Nat) : Int) = W by omega, startRow_last hH hW hWH]
  simp [startRow_zero]

/-- C11, amended.  For every height `H ≥ 0` and worker count `W > H` whose product `W * H`
fits a 32-bit `int`, every band of `main` has size 0 or 1, exactly `H` of the `W` bands hold
a row and the other `W - H` have `startRow = endRow`; and `compute_image_thread`, run on a
band with `startRow = endRow`, returns the bitmap unchanged, without a trap, in every
arithmetic. -/
theorem extra_workers_empty {F : Type} [DoubleOps F] (H W : Int) (hH : 0 ≤ H) (hHW : H < W)
    (hWH : W * H ≤ 2147483647) :
    (∀ k, 0 ≤ k → k < W →
      endRow k H W - startRow k H W = 0 ∨ endRow k H W - startRow k H W = 1) ∧
    (((Finset.range W.toNat).filter
      (fun k : Nat => startRow k H W < endRow k H W)).card : Int) = H ∧
    (((Finset.range W.toNat).filter
      (fun k : Nat => startRow k H W = endRow k H W)).card : Int) = W - H ∧
    (∀ (data : ThreadData F) (bm : bitmap), data.startRow = data.endRow →
      compute_image_thread data bm = some bm) := by
  have hcard := nonempty_bands_card hH hHW hWH
  refine ⟨fun k hk0 hk => band_size_zero_or_one hH hHW hWH hk0 hk, hcard, ?_,
    fun data bm h => compute_image_thread_of_empty data bm (le_of_eq h.symm)⟩
  have hsplit := Finset.filter_card_add_filter_neg_card_eq_card
    (s := Finset.range W.toNat) (fun k : Nat => startRow k H W < endRow k H W)
  have hcongr : (Finset.range W.toNat).filter
      (fun k : Nat => ¬ startRow k H W < endRow k H W) =
      (Finset.range W.toNat).filter (fun k : Nat => startRow k H W = endRow k H W) := by
    apply Finset.filter_congr
    intro k hk
    have hk' : (k : Int) < W := by
      have := Finset.mem_range.1 hk
      omega
    have h01 := band_size_zero_or_one hH hHW hWH (Int.ofNat_nonneg k) hk'
    constructor <;> intro h <;> omega
  rw [hcongr, Finset.card_range] at hsplit
  have hW : ((W.toNat : Nat) : Int) = W := by omega
  have hsplit' : ((((Finset.range W.toNat).filter
      (fun k : Nat => startRow k H W < endRow k H W)).card : Int)
      + (((Finset.range W.toNat).filter
        (fun k : Nat => startRow k H W = endRow k H W)).card : Int))
      = ((W.toNat : Nat) : Int) := by
    exact_mod_cast hsplit
  omega

/-- The bands of 3 rows between 500 workers, in exact arithmetic. -/
theorem extra_workers_empty_witness :
    (∀ k, 0 ≤ k → k < 500 →
      endRow k 3 500 - startRow k 3 500 = 0 ∨ endRow k 3 500 - startRow k 3 500 = 1) ∧
    (((Finset.range (500 : Int).toNat).filter
      (fun k : Nat => startRow k 3 500 < endRow k 3 500)).card : Int) = 3 ∧
    (((Finset.range (500 : Int).toNat).filter
      (fun k : Nat => startRow k 3 500 = endRow k 3 500)).card : Int) = 500 - 3 ∧
    (∀ (data : ThreadData ℚ) (bm : bitmap), data.startRow = data.endRow →
      compute_image_thread data bm = some bm) :=
  extra_workers_empty 3 500 (by decide) (by decide) (by decide)

/-- C11 fails as stated: for `H = 32768` rows and `W = 65536 > H` workers the product
`65536 * 32768 = 2^31` wraps, and the last band has size `-65535`, neither 0 nor 1. -/
theorem extra_workers_overflow :
    (0 : Int) ≤ 32768 ∧ (32768 : Int) < 65536 ∧
      endRow 65535 32768 65536 - startRow 65535 32768 65536 = -65535 ∧
      endRow 65535 32768 65536 - startRow 65535 32768 65536 ≠ 0 ∧
      endRow 65535 32768 65536 - startRow 65535 32768 65536 ≠ 1 := by
  decide

end Mandel

namespace Mandel

/-! ## The pixels a worker writes -/

section
variable {F : Type} [DoubleOps F]

/-- The loop over the pixels of row `j` changes only pixels of row `j` in the columns
`0 ≤ a < w`. -/
theorem rowLoop_frame_columns {data : ThreadData F} {w h j : Int} {bm bm' : bitmap}
    (hs : forLoop (pixelStep data w h j) w 0 bm = some bm') :
    ∀ a b, ¬ (b = j ∧ 0 ≤ a ∧ a < w) → bm'.data a b = bm.data a b := by
  refine forLoop_invariant (pixelStep data w h j)
    (fun t => ∀ a b, ¬ (b = j ∧ 0 ≤ a ∧ a < w) → t.data a b = bm.data a b) 0 w ?_ bm bm'
    (fun _ _ _ => rfl) hs
  intro i s s' hi0 hi hP hstep a b hab
  obtain ⟨g, hg⟩ := pixelStep_shape hstep
  subst hg
  rw [← hP a b hab]
  show (if a = i ∧ b = j then MAKE_RGBA g g g 0 else s.data a b) = s.data a b
  rw [if_neg (fun hc => hab ⟨hc.2, by omega, by omega⟩)]

/-- The function `compute_image_thread` changes only pixels of the rows of its band, in the
columns `0 ≤ a < width`. -/
theorem compute_image_thread_frame_columns {data : ThreadData F} {bm bm' : bitmap}
    (hs : compute_image_thread data bm = some bm') :
    ∀ a b, ¬ (data.startRow ≤ b ∧ b < data.endRow ∧ 0 ≤ a ∧ a < bm.width) →
      bm'.data a b = bm.data a b := by
  unfold compute_image_thread bitmap_width bitmap_height at hs
  refine forLoop_invariant _
    (fun t => ∀ a b, ¬ (data.startRow ≤ b ∧ b < data.endRow ∧ 0 ≤ a ∧ a < bm.width) →
      t.data a b = bm.data a b)
    data.startRow data.endRow ?_ bm bm' (fun _ _ _ => rfl) hs
  intro j s s' hj1 hj2 hP hrow a b hab
  rw [rowLoop_frame_columns hrow a b (fun hc => hab ⟨by omega, by omega, hc.2.1, hc.2.2⟩)]
  exact hP a b hab

/-- A color of the point evaluator is never the sentinel color of `main`. -/
theorem iterations_at_point_ne_sentinel (x y : F) (max : Int) :
    iterations_at_point x y max ≠ some (MAKE_RGBA 0 0 255 0) := by
  intro h
  obtain ⟨g, hg⟩ := iteration_to_color_gray_of_some h
  have h1 := congrArg Color.red hg
  have h2 := congrArg Color.blue hg
  simp only [MAKE_RGBA] at h1 h2
  omega

/-- A pixel of a row that lies in no band keeps the sentinel color in the image that `main`
saves. -/
theorem main_keeps_sentinel (cfg : Config F) (bitmap_save : bitmap → Bool) (i0 j0 : Int)
    (hbands : ∀ k, 0 ≤ k → k < cfg.numberOfThreads →
      j0 < startRow k cfg.image_height cfg.numberOfThreads ∨
        endRow k cfg.image_height cfg.numberOfThreads ≤ j0)
    (r : RunResult) (hr : main cfg bitmap_save = some r) :
    r.saved.data i0 j0 = MAKE_RGBA 0 0 255 0 := by
  have hW : 0 ≤ cfg.numberOfThreads := by
    by_contra hneg
    rw [main_of_neg cfg bitmap_save (by omega)] at hr
    cases hr
  have hsaved := main_saved cfg bitmap_save hW
  rw [hr] at hsaved
  cases hloop : forLoop (launch cfg) cfg.numberOfThreads 0
      { bm := bitmap_reset (bitmap_create cfg.image_width cfg.image_height)
          (MAKE_RGBA 0 0 255 0), created := 0 } with
  | none => rw [hloop] at hsaved; cases hsaved
  | some st =>
    rw [hloop] at hsaved
    have hbm : r.saved = st.bm := Option.some.inj hsaved
    rw [hbm]
    refine forLoop_invariant (launch cfg)
      (fun t => t.bm.data i0 j0 = MAKE_RGBA 0 0 255 0) 0 cfg.numberOfThreads ?_ _ st rfl hloop
    intro k s s' hk0 hk hP hl
    unfold launch at hl
    cases hc : compute_image_thread (thread_data cfg k) s.bm with
    | none => rw [hc] at hl; cases hl
    | some b =>
      rw [hc] at hl
      cases hl
      obtain ⟨_, _, hframe⟩ := compute_image_thread_frame hc
      show b.data i0 j0 = _
      rw [hframe i0 j0 (hbands k hk0 hk)]
      exact hP

end

/-! ## The pixels a worker writes: the claims -/

/-- C12, amended.  For every `width > 0`, `height > 0`, `max > 0`, viewport and worker count
`W > 0` whose product `W * height` fits a 32-bit `int`, in every arithmetic, `main` reaches
its end and every pixel `(i, j)` with `0 ≤ i < width` and `0 ≤ j < height` of the image it
saves holds `iterations_at_point(xMin + i*(xMax-xMin)/width, yMin + j*(yMax-yMin)/height,
max)`; no such pixel keeps the sentinel color written by `bitmap_reset`. -/
theorem render_fully_populated {F : Type} [DoubleOps F] (cfg : Config F)
    (bitmap_save : bitmap → Bool) (_hw : 0 < cfg.image_width) (hh : 0 < cfg.image_height)
    (hmax : 0 < cfg.max) (hW : 0 < cfg.numberOfThreads)
    (hWH : cfg.numberOfThreads * cfg.image_height ≤ 2147483647) :
    ∃ r, main cfg bitmap_save = some r ∧
      ∀ i j, 0 ≤ i → i < cfg.image_width → 0 ≤ j → j < cfg.image_height →
        some (r.saved.data i j) =
          iterations_at_point
            ((cfg.xcenter - cfg.scale) + DoubleOps.ofInt i *
              ((cfg.xcenter + cfg.scale) - (cfg.xcenter - cfg.scale)) /
                DoubleOps.ofInt cfg.image_width)
            ((cfg.ycenter - cfg.scale) + DoubleOps.ofInt j *
              ((cfg.ycenter + cfg.scale) - (cfg.ycenter - cfg.scale)) /
                DoubleOps.ofInt cfg.image_height)
            cfg.max ∧
        r.saved.data i j ≠ MAKE_RGBA 0 0 255 0 := by
  have hlo : -2147483648 ≤ cfg.numberOfThreads * cfg.image_height := by
    have := Int.mul_nonneg (le_of_lt hW) (le_of_lt hh)
    omega
  obtain ⟨r, hr, hpix⟩ := main_pixel cfg bitmap_save hmax hW hlo hWH
  refine ⟨r, hr, ?_⟩
  intro i j hi0 hi hj0 hj
  have h := hpix i j hi0 hi hj0 hj
  refine ⟨h, ?_⟩
  intro hsent
  rw [hsent] at h
  exact iterations_at_point_ne_sentinel _ _ _ h.symm

/-- The default 500×500 render with 7 workers, in exact arithmetic. -/
theorem render_fully_populated_witness :
    ∃ r, main (defaultCfg 500 500 7) (fun _ => true) = some r ∧
      ∀ i j, 0 ≤ i → i < (defaultCfg 500 500 7).image_width → 0 ≤ j →
        j < (defaultCfg 500 500 7).image_height →
        some (r.saved.data i j) =
          iterations_at_point
            (((defaultCfg 500 500 7).xcenter - (defaultCfg 500 500 7).scale) +
              DoubleOps.ofInt i *
              (((defaultCfg 500 500 7).xcenter + (defaultCfg 500 500 7).scale) -
                ((defaultCfg 500 500 7).xcenter - (defaultCfg 500 500 7).scale)) /
                DoubleOps.ofInt (defaultCfg 500 500 7).image_width)
            (((defaultCfg 500 500 7).ycenter - (defaultCfg 500 500 7).scale) +
              DoubleOps.ofInt j *
              (((defaultCfg 500 500 7).ycenter + (defaultCfg 500 500 7).scale) -
                ((defaultCfg 500 500 7).ycenter - (defaultCfg 500 500 7).scale)) /
                DoubleOps.ofInt (defaultCfg 500 500 7).image_height)
            (defaultCfg 500 500 7).max ∧
        r.saved.data i j ≠ MAKE_RGBA 0 0 255 0 :=
  render_fully_populated (defaultCfg 500 500 7) (fun _ => true) (by decide) (by decide)
    (by decide) (by decide) (by decide)

/-- Every band of 1048576 rows between 2048 workers ends at or before row 1048064. -/
theorem endRow_overflow_bound_tall (k : Int) (hk0 : 0 ≤ k) (hk : k < 2048) :
    endRow k 1048576 2048 ≤ 1048064 := by
  by_cases hlast : k = 2047
  · subst hlast; decide
  · unfold endRow
    rw [wrap32_of_range (by omega) (by omega),
      Int.tdiv_eq_ediv (by omega) (by decide)]
    omega

/-- C12 fails as stated: for a 1×1048576 image and 2048 workers the product
`2048 * 1048576 = 2^31` wraps, the last band is empty, and the pixel (0, 1048575) of the
saved image keeps the sentinel color, which is not the color of its point. -/
theorem render_not_populated_overflow :
    ∃ r, main (defaultCfg 1 1048576 2048) (fun _ => true) = some r ∧
      r.saved.data 0 1048575 = MAKE_RGBA 0 0 255 0 ∧
      some (r.saved.data 0 1048575) ≠
        iterations_at_point
          (pixelX (thread_data (defaultCfg 1 1048576 2048) 0) 1 0)
          (pixelY (thread_data (defaultCfg 1 1048576 2048) 0) 1048576 1048575) 1000 := by
  obtain ⟨r, hr, _⟩ := main_total (defaultCfg 1 1048576 2048) (fun _ => true) (by decide)
    (by decide)
  have hsent := main_keeps_sentinel (defaultCfg 1 1048576 2048) (fun _ => true) 0 1048575
    (fun k hk0 hk => Or.inr (by
      have := endRow_overflow_bound_tall k hk0 hk
      show endRow k 1048576 2048 ≤ 1048575
      omega)) r hr
  refine ⟨r, hr, hsent, ?_⟩
  rw [hsent]
  exact fun h => iterations_at_point_ne_sentinel _ _ _ h.symm

/-- C13.  For every image, every worker with the band `[startRow, endRow)` and every
arithmetic, `compute_image_thread` keeps the size of the image and changes only pixels
`(i, j)` with `startRow ≤ j < endRow` and `0 ≤ i < width`; every pixel of a row outside the
band has the same value after the call as before it.  For a positive iteration bound the
call returns. -/
theorem write_exclusivity {F : Type} [DoubleOps F] (data : ThreadData F) (bm : bitmap) :
    (∀ bm', compute_image_thread data bm = some bm' →
      bitmap_width bm' = bitmap_width bm ∧ bitmap_height bm' = bitmap_height bm ∧
      (∀ i j, bm'.data i j ≠ bm.data i j →
        data.startRow ≤ j ∧ j < data.endRow ∧ 0 ≤ i ∧ i < bitmap_width bm) ∧
      (∀ i j, (j < data.startRow ∨ data.endRow ≤ j) → bm'.data i j = bm.data i j)) ∧
    (0 < data.maxIterations → ∃ bm', compute_image_thread data bm = some bm') := by
  refine ⟨?_, fun hmax => compute_image_thread_total data bm hmax⟩
  intro bm' hs
  obtain ⟨f1, f2, f3⟩ := compute_image_thread_frame hs
  refine ⟨f1, f2, ?_, f3⟩
  intro i j hne
  by_contra hnot
  exact hne (compute_image_thread_frame_columns hs i j hnot)

end Mandel

namespace Mandel

/-! ## The loop and the orbit -/

section
variable {F : Type} [DoubleOps F]

/-- After `k` executions of the loop body the variables hold the `k`-th point of the orbit
and the counter `k`. -/
theorem iterate_loopBody_eq_orbit (x0 y0 : F) (k : Nat) :
    (loopBody x0 y0)^[k] ⟨x0, y0, 0⟩ =
      ⟨(specOrbit x0 y0 k).1, (specOrbit x0 y0 k).2, (k : Int)⟩ := by
  induction k with
  | zero => rfl
  | succ k ih =>
    rw [Function.iterate_succ_apply', ih]
    show (⟨_, _, (k : Int) + 1⟩ : LoopState F) = ⟨_, _, ((k + 1 : Nat) : Int)⟩
    rw [show ((k + 1 : Nat) : Int) = (k : Int) + 1 by push_cast; rfl]
    rfl

/-- The test of the loop at the `k`-th point of the orbit: the point has not escaped and
`k < max`. -/
theorem loopCond_orbit (max : Int) (x0 y0 : F) (k : Nat) :
    loopCond max ((loopBody x0 y0)^[k] ⟨x0, y0, 0⟩) =
      (!specEscaped (specOrbit x0 y0 k) && decide ((k : Int) < max)) := by
  rw [iterate_loopBody_eq_orbit]
  simp [loopCond, specEscaped]

/-- The iteration count of the loop for a bound `max ≥ 0`: no point of the orbit before it
has escaped, and it is below `max` only if its own point has escaped. -/
theorem iterCount_spec (x0 y0 : F) (max : Int) (hmax : 0 ≤ max) :
    ∃ n : Nat, (whileLoop max x0 y0 ⟨x0, y0, 0⟩).iter = n ∧ (n : Int) ≤ max ∧
      (∀ k : Nat, k < n → specEscaped (specOrbit x0 y0 k) = false) ∧
      ((n : Int) < max → specEscaped (specOrbit x0 y0 n) = true) := by
  obtain ⟨n, hn, hbefore, hafter, hres⟩ :=
    whileLoop_runs max x0 y0 (max - 0).toNat ⟨x0, y0, 0⟩ rfl
  have hn' : (n : Int) ≤ max := by omega
  refine ⟨n, ?_, hn', ?_, ?_⟩
  · rw [hres, iterate_loopBody_iter]; simp
  · intro k hk
    have h := hbefore k hk
    rw [loopCond_orbit] at h
    simp only [Bool.and_eq_true, Bool.not_eq_true', decide_eq_true_eq] at h
    exact h.1
  · intro hlt
    rw [loopCond_orbit] at hafter
    cases hesc : specEscaped (specOrbit x0 y0 n) with
    | true => rfl
    | false =>
      rw [hesc] at hafter
      simp only [Bool.not_false, Bool.true_and, decide_eq_false_iff_not] at hafter
      exact absurd hlt hafter

/-- The iteration count is the first index of the orbit, up to `max`, at which the point has
escaped. -/
theorem iterCount_eq_of_first (x0 y0 : F) (max : Int) (hmax : 0 ≤ max) (m : Nat)
    (hm : (m : Int) ≤ max) (hbefore : ∀ k : Nat, k < m → specEscaped (specOrbit x0 y0 k) = false)
    (hat : (m : Int) < max → specEscaped (specOrbit x0 y0 m) = true) :
    (whileLoop max x0 y0 ⟨x0, y0, 0⟩).iter = m := by
  obtain ⟨n, hn, hle, hb, ha⟩ := iterCount_spec x0 y0 max hmax
  rw [hn]
  rcases Nat.lt_trichotomy n m with h | h | h
  · have h1 := ha (by omega)
    rw [hbefore n h] at h1
    cases h1
  · rw [h]
  · have h1 := hat (by omega)
    rw [hb m h] at h1
    cases h1

end

/-! ## The loop and the orbit: the claims -/

/-- C14.  For every point `c = (x0, y0)`, in every arithmetic, and every `max ≥ 0`, with the
orbit `z_0 = c`, `z_{n+1} = z_n^2 + c`: the iteration count of `iterations_at_point` is the
least `m ≤ max` at which the orbit has escaped (`|z_m|^2 > 4`), when there is one, and it is
`max` when no point `z_k` with `k < max` has escaped. -/
theorem escape_time_reference {F : Type} [DoubleOps F] (x0 y0 : F) (max : Int)
    (hmax : 0 ≤ max) :
    (∀ m : Nat, (m : Int) ≤ max → specEscaped (specOrbit x0 y0 m) = true →
      (∀ k : Nat, k < m → specEscaped (specOrbit x0 y0 k) = false) →
      (whileLoop max x0 y0 ⟨x0, y0, 0⟩).iter = m ∧
        iterations_at_point x0 y0 max = iteration_to_color m max) ∧
    ((∀ k : Nat, (k : Int) < max → specEscaped (specOrbit x0 y0 k) = false) →
      (whileLoop max x0 y0 ⟨x0, y0, 0⟩).iter = max ∧
        iterations_at_point x0 y0 max = iteration_to_color max max) ∧
    ∃ n : Nat, (whileLoop max x0 y0 ⟨x0, y0, 0⟩).iter = n ∧ (n : Int) ≤ max ∧
      (∀ k : Nat, k < n → specEscaped (specOrbit x0 y0 k) = false) ∧
      ((n : Int) < max → specEscaped (specOrbit x0 y0 n) = true) := by
  refine ⟨?_, ?_, iterCount_spec x0 y0 max hmax⟩
  · intro m hm hesc hbefore
    have h := iterCount_eq_of_first x0 y0 max hmax m hm hbefore (fun _ => hesc)
    exact ⟨h, by unfold iterations_at_point; rw [h]⟩
  · intro hnone
    have h := iterCount_eq_of_first x0 y0 max hmax max.toNat (by omega)
      (fun k hk => hnone k (by omega)) (fun hlt => absurd hlt (by omega))
    rw [show ((max.toNat : Nat) : Int) = max by omega] at h
    exact ⟨h, by unfold iterations_at_point; rw [h]⟩

/-- The orbit of the point `(-1, -1/2)` with `max = 1000`, in exact arithmetic. -/
theorem escape_time_reference_witness :
    (∀ m : Nat, (m : Int) ≤ 1000 → specEscaped (specOrbit (-1 : ℚ) (-1 / 2) m) = true →
      (∀ k : Nat, k < m → specEscaped (specOrbit (-1 : ℚ) (-1 / 2) k) = false) →
      (whileLoop 1000 (-1 : ℚ) (-1 / 2) ⟨-1, -1 / 2, 0⟩).iter = m ∧
        iterations_at_point (-1 : ℚ) (-1 / 2) 1000 = iteration_to_color m 1000) ∧
    ((∀ k : Nat, (k : Int) < 1000 → specEscaped (specOrbit (-1 : ℚ) (-1 / 2) k) = false) →
      (whileLoop 1000 (-1 : ℚ) (-1 / 2) ⟨-1, -1 / 2, 0⟩).iter = 1000 ∧
        iterations_at_point (-1 : ℚ) (-1 / 2) 1000 = iteration_to_color 1000 1000) ∧
    ∃ n : Nat, (whileLoop 1000 (-1 : ℚ) (-1 / 2) ⟨-1, -1 / 2, 0⟩).iter = n ∧
      (n : Int) ≤ 1000 ∧
      (∀ k : Nat, k < n → specEscaped (specOrbit (-1 : ℚ) (-1 / 2) k) = false) ∧
      ((n : Int) < 1000 → specEscaped (specOrbit (-1 : ℚ) (-1 / 2) n) = true) :=
  escape_time_reference (-1 : ℚ) (-1 / 2) 1000 (by decide)

/-- C18.  For every point `(x, y)`, in every arithmetic, and bounds `0 ≤ m ≤ m'`, the
iteration count of `iterations_at_point` with bound `m` is the minimum of `m` and the count
with bound `m'`; raising the bound never lowers the count, and it does not change the count
of a point that has escaped before the bound `m`. -/
theorem bound_consistency {F : Type} [DoubleOps F] (x y : F) (m m' : Int) (hm : 0 ≤ m)
    (hmm : m ≤ m') :
    (whileLoop m x y ⟨x, y, 0⟩).iter = min m (whileLoop m' x y ⟨x, y, 0⟩).iter ∧
    (whileLoop m x y ⟨x, y, 0⟩).iter ≤ (whileLoop m' x y ⟨x, y, 0⟩).iter ∧
    ((whileLoop m x y ⟨x, y, 0⟩).iter < m →
      (whileLoop m' x y ⟨x, y, 0⟩).iter = (whileLoop m x y ⟨x, y, 0⟩).iter) := by
  obtain ⟨n, hn, hle, hb, ha⟩ := iterCount_spec x y m hm
  obtain ⟨n', hn', hle', hb', ha'⟩ := iterCount_spec x y m' (le_trans hm hmm)
  have key : (n : Int) = min m (n' : Int) := by
    by_cases hcase : (n' : Int) ≤ m
    · rw [min_eq_right hcase]
      rcases Nat.lt_trichotomy n n' with h | h | h
      · have h1 := ha (by omega)
        rw [hb' n h] at h1
        cases h1
      · rw [h]
      · have h1 := ha' (by omega)
        rw [hb n' h] at h1
        cases h1
    · rw [min_eq_left (by omega)]
      by_contra hne
      have hlt : (n : Int) < m := by omega
      have h1 := ha hlt
      rw [hb' n (by omega)] at h1
      cases h1
  rw [hn, hn']
  refine ⟨key, ?_, ?_⟩
  · rw [key]; exact min_le_right _ _
  · intro hlt
    rcases min_choice m (n' : Int) with h | h
    · rw [h] at key; omega
    · rw [h] at key; exact key.symm

/-- The point `(-1, -1/2)` with the bounds 2 and 1000, in exact arithmetic. -/
theorem bound_consistency_witness :
    (whileLoop 2 (-1 : ℚ) (-1 / 2) ⟨-1, -1 / 2, 0⟩).iter =
        min 2 (whileLoop 1000 (-1 : ℚ) (-1 / 2) ⟨-1, -1 / 2, 0⟩).iter ∧
    (whileLoop 2 (-1 : ℚ) (-1 / 2) ⟨-1, -1 / 2, 0⟩).iter ≤
        (whileLoop 1000 (-1 : ℚ) (-1 / 2) ⟨-1, -1 / 2, 0⟩).iter ∧
    ((whileLoop 2 (-1 : ℚ) (-1 / 2) ⟨-1, -1 / 2, 0⟩).iter < 2 →
      (whileLoop 1000 (-1 : ℚ) (-1 / 2) ⟨-1, -1 / 2, 0⟩).iter =
        (whileLoop 2 (-1 : ℚ) (-1 / 2) ⟨-1, -1 / 2, 0⟩).iter) :=
  bound_consistency (-1 : ℚ) (-1 / 2) 2 1000 (by decide) (by decide)

/-- C19.  For every point `(x, y)` outside the disc of radius 2 (the test `x*x + y*y <= 4`
is false), in every arithmetic, and every `max > 0`, the loop of `iterations_at_point` runs
zero times, the iteration count is 0 and the color is (0, 0, 0, 0). -/
theorem outside_disc_black {F : Type} [DoubleOps F] (x y : F) (max : Int)
    (hout : DoubleOps.le (x * x + y * y) (DoubleOps.ofInt 4) = false) (hmax : 0 < max) :
    loopCond max (⟨x, y, 0⟩ : LoopState F) = false ∧
    whileLoop max x y ⟨x, y, 0⟩ = ⟨x, y, 0⟩ ∧
    (whileLoop max x y ⟨x, y, 0⟩).iter = 0 ∧
    iterations_at_point x y max = some (MAKE_RGBA 0 0 0 0) := by
  have hc : loopCond max (⟨x, y, 0⟩ : LoopState F) = false := by
    simp [loopCond, hout]
  have hl := whileLoop_of_cond_false max x y _ hc
  refine ⟨hc, hl, by rw [hl], ?_⟩
  unfold iterations_at_point
  rw [hl]
  show iteration_to_color 0 max = some (MAKE_RGBA 0 0 0 0)
  unfold iteration_to_color
  rw [show wrap32 (255 * 0) = 0 by decide, cdiv_of_pos le_rfl hmax]
  simp

/-- The point `(3, 0)` with `max = 1000`, in exact arithmetic. -/
theorem outside_disc_black_witness :
    loopCond 1000 (⟨3, 0, 0⟩ : LoopState ℚ) = false ∧
    whileLoop 1000 (3 : ℚ) 0 ⟨3, 0, 0⟩ = ⟨3, 0, 0⟩ ∧
    (whileLoop 1000 (3 : ℚ) 0 ⟨3, 0, 0⟩).iter = 0 ∧
    iterations_at_point (3 : ℚ) 0 1000 = some (MAKE_RGBA 0 0 0 0) :=
  outside_disc_black (3 : ℚ) 0 1000
    (by norm_num [DoubleOps.le, DoubleOps.ofInt]) (by decide)

end Mandel

namespace Mandel

/-! ## Zero workers, the overflow bound of the color map, conjugation -/

/-- C15.  When the worker count is 0, in every arithmetic and for every other setting,
`main` creates no worker and writes no pixel: the loop of line 108 leaves the bitmap as
`bitmap_reset` made it, that sentinel-filled bitmap is the image handed to `bitmap_save`,
and the worker count is not reported as an error: `main` reaches its end, where the only
message it can print is the one for a save that fails, so a successful save gives exit
status 0 without a message. -/
theorem zero_workers_blank {F : Type} [DoubleOps F] (cfg : Config F)
    (bitmap_save : bitmap → Bool) :
    forLoop (launch { cfg with numberOfThreads := 0 }) 0 0
        { bm := bitmap_reset (bitmap_create cfg.image_width cfg.image_height)
            (MAKE_RGBA 0 0 255 0), created := 0 } =
      some
        { bm := bitmap_reset (bitmap_create cfg.image_width cfg.image_height)
            (MAKE_RGBA 0 0 255 0), created := 0 } ∧
    ∃ r, main { cfg with numberOfThreads := 0 } bitmap_save = some r ∧
      r.created = 0 ∧
      r.saved = bitmap_reset (bitmap_create cfg.image_width cfg.image_height)
        (MAKE_RGBA 0 0 255 0) ∧
      (∀ i j, r.saved.data i j = MAKE_RGBA 0 0 255 0) ∧
      r.errorReported = !bitmap_save r.saved ∧
      (bitmap_save r.saved = true → r.errorReported = false ∧ r.status = 0) := by
  have hloop : forLoop (launch { cfg with numberOfThreads := 0 }) 0 0
      { bm := bitmap_reset (bitmap_create cfg.image_width cfg.image_height)
          (MAKE_RGBA 0 0 255 0), created := 0 } =
      some
        { bm := bitmap_reset (bitmap_create cfg.image_width cfg.image_height)
            (MAKE_RGBA 0 0 255 0), created := 0 } := forLoop_of_ge _ le_rfl _
  refine ⟨hloop, ?_⟩
  cases hs : bitmap_save (bitmap_reset (bitmap_create cfg.image_width cfg.image_height)
    (MAKE_RGBA 0 0 255 0))
  · refine ⟨{ created := 0
              saved := bitmap_reset (bitmap_create cfg.image_width cfg.image_height)
                (MAKE_RGBA 0 0 255 0)
              errorReported := true, status := 1 }, ?_, rfl, rfl, fun _ _ => rfl, ?_, ?_⟩
    · rw [main_of_nonneg _ _ (le_refl (0 : Int))]
      simp only
      rw [hloop]
      simp [hs]
    · simp [hs]
    · intro h; rw [hs] at h; cases h
  · refine ⟨{ created := 0
              saved := bitmap_reset (bitmap_create cfg.image_width cfg.image_height)
                (MAKE_RGBA 0 0 255 0)
              errorReported := false, status := 0 }, ?_, rfl, rfl, fun _ _ => rfl, ?_, ?_⟩
    · rw [main_of_nonneg _ _ (le_refl (0 : Int))]
      simp only
      rw [hloop]
      simp [hs]
    · simp [hs]
    · intro _; exact ⟨rfl, rfl⟩

/-- The color map without overflow: the gray level is the floor quotient. -/
theorem iteration_to_color_exact {i max : Int} (hmax : 0 < max) (hi0 : 0 ≤ i)
    (hprod : 255 * i ≤ 2147483647) :
    wrap32 (255 * i) = 255 * i ∧
      iteration_to_color i max =
        some (MAKE_RGBA ((255 * i) / max) ((255 * i) / max) ((255 * i) / max) 0) := by
  have hw : wrap32 (255 * i) = 255 * i := wrap32_of_range (by omega) hprod
  refine ⟨hw, ?_⟩
  unfold iteration_to_color
  rw [hw, cdiv_of_pos (by omega) hmax]

/-- C17.  For every `max > 0` with `255*max ≤ 2^31 - 1` (that is `max ≤ 8421504`) and every
`i` with `0 ≤ i ≤ max`, the product `255*i` does not wrap in signed 32-bit arithmetic, the
gray level of `iteration_to_color` is the exact `floor(255*i/max)` and lies in `[0, 255]`;
for `max = 8421505` and `i = max` the product exceeds `2^31 - 1`, wraps to `-2147483521`,
and the gray level is `-254`, not 255. -/
theorem color_map_overflow_bound (max i : Int) (hmax : 0 < max)
    (hbound : 255 * max ≤ 2147483647) (hi0 : 0 ≤ i) (hi : i ≤ max) :
    (max ≤ 8421504 ∧ 255 * i ≤ 2147483647 ∧ wrap32 (255 * i) = 255 * i) ∧
    (iteration_to_color i max =
        some (MAKE_RGBA ⌊(255 * i : ℚ) / (max : ℚ)⌋ ⌊(255 * i : ℚ) / (max : ℚ)⌋
          ⌊(255 * i : ℚ) / (max : ℚ)⌋ 0) ∧
      0 ≤ ⌊(255 * i : ℚ) / (max : ℚ)⌋ ∧ ⌊(255 * i : ℚ) / (max : ℚ)⌋ ≤ 255) ∧
    ((2147483647 : Int) < 255 * 8421505 ∧ wrap32 (255 * 8421505) = -2147483521 ∧
      iteration_to_color 8421505 8421505 = some (MAKE_RGBA (-254) (-254) (-254) 0) ∧
      iteration_to_color 8421505 8421505 ≠ some (MAKE_RGBA 255 255 255 0)) := by
  have hprod : 255 * i ≤ 2147483647 := by omega
  obtain ⟨hw, hcol⟩ := iteration_to_color_exact hmax hi0 hprod
  have hfl : ⌊(255 * i : ℚ) / (max : ℚ)⌋ = (255 * i) / max := by
    have := floor_div_eq (H := 255 * i) hmax
    push_cast at this
    exact this
  refine ⟨⟨by omega, hprod, hw⟩, ⟨?_, ?_, ?_⟩, by decide, by decide, by decide, by decide⟩
  · rw [hfl]; exact hcol
  · rw [hfl]; exact Int.ediv_nonneg (by omega) (le_of_lt hmax)
  · rw [hfl]
    have : 255 * i < (255 + 1) * max := by omega
    have := (Int.ediv_lt_iff_lt_mul hmax).2 this
    omega

/-- The largest bound without overflow, `max = 8421504`, at `i = max`. -/
theorem color_map_overflow_bound_witness :
    ((8421504 : Int) ≤ 8421504 ∧ 255 * (8421504 : Int) ≤ 2147483647 ∧
      wrap32 (255 * 8421504) = 255 * 8421504) ∧
    (iteration_to_color 8421504 8421504 =
        some (MAKE_RGBA ⌊(255 * (8421504 : Int) : ℚ) / ((8421504 : Int) : ℚ)⌋
          ⌊(255 * (8421504 : Int) : ℚ) / ((8421504 : Int) : ℚ)⌋
          ⌊(255 * (8421504 : Int) : ℚ) / ((8421504 : Int) : ℚ)⌋ 0) ∧
      0 ≤ ⌊(255 * (8421504 : Int) : ℚ) / ((8421504 : Int) : ℚ)⌋ ∧
      ⌊(255 * (8421504 : Int) : ℚ) / ((8421504 : Int) : ℚ)⌋ ≤ 255) ∧
    ((2147483647 : Int) < 255 * 8421505 ∧ wrap32 (255 * 8421505) = -2147483521 ∧
      iteration_to_color 8421505 8421505 = some (MAKE_RGBA (-254) (-254) (-254) 0) ∧
      iteration_to_color 8421505 8421505 ≠ some (MAKE_RGBA 255 255 255 0)) :=
  color_map_overflow_bound 8421504 8421504 (by decide) (by decide) (by decide) (by decide)

section
variable {F : Type} [DoubleOps F]

/-- Two runs of the loop whose variables `x` agree and whose variables `y` are opposite
have the same iteration count. -/
theorem whileLoop_conj (same opp : F → F → Prop) (h : ConjLaws same opp) (max : Int)
    (x0 x1 y0 y1 : F) (hx0 : same x0 x1) (hy0 : opp y0 y1) :
    ∀ (m : Nat) (s t : LoopState F), (max - s.iter).toNat = m → s.iter = t.iter →
      same s.x t.x → opp s.y t.y →
      (whileLoop max x0 y0 s).iter = (whileLoop max x1 y1 t).iter := by
  have hcond : ∀ s t : LoopState F, s.iter = t.iter → same s.x t.x → opp s.y t.y →
      loopCond max s = loopCond max t := by
    intro s t hi hx hy
    unfold loopCond
    rw [h.le _ _ _ _ (h.add _ _ _ _ (h.mul _ _ _ _ hx hx) (h.mul_opp_opp _ _ _ _ hy hy))
      (h.refl (DoubleOps.ofInt 4)), hi]
  intro m
  induction m with
  | zero =>
    intro s t hm hi hx hy
    have hc : loopCond max s = false := by
      cases hcs : loopCond max s with
      | false => rfl
      | true => have := loopCond_iter_lt hcs; omega
    rw [whileLoop_of_cond_false max x0 y0 s hc,
      whileLoop_of_cond_false max x1 y1 t (by rw [← hcond s t hi hx hy]; exact hc)]
    exact hi
  | succ m ih =>
    intro s t hm hi hx hy
    cases hc : loopCond max s with
    | false =>
      rw [whileLoop_of_cond_false max x0 y0 s hc,
        whileLoop_of_cond_false max x1 y1 t (by rw [← hcond s t hi hx hy]; exact hc)]
      exact hi
    | true =>
      have hlt := loopCond_iter_lt hc
      rw [whileLoop_of_cond_true max x0 y0 s hc,
        whileLoop_of_cond_true max x1 y1 t (by rw [← hcond s t hi hx hy]; exact hc)]
      apply ih
      · rw [loopBody_iter]; omega
      · rw [loopBody_iter, loopBody_iter, hi]
      · exact h.add _ _ _ _
          (h.sub _ _ _ _ (h.mul _ _ _ _ hx hx) (h.mul_opp_opp _ _ _ _ hy hy)) hx0
      · exact h.add_opp _ _ _ _
          (h.mul_same_opp _ _ _ _ (h.mul _ _ _ _ (h.refl _) hx) hy) hy0

/-- The orbits of two conjugate points are conjugate at every step. -/
theorem specOrbit_conj (same opp : F → F → Prop) (h : ConjLaws same opp)
    (x0 x1 y0 y1 : F) (hx0 : same x0 x1) (hy0 : opp y0 y1) (k : Nat) :
    same (specOrbit x0 y0 k).1 (specOrbit x1 y1 k).1 ∧
      opp (specOrbit x0 y0 k).2 (specOrbit x1 y1 k).2 := by
  induction k with
  | zero => exact ⟨hx0, hy0⟩
  | succ k ih =>
    exact ⟨h.add _ _ _ _
        (h.sub _ _ _ _ (h.mul _ _ _ _ ih.1 ih.1) (h.mul_opp_opp _ _ _ _ ih.2 ih.2)) hx0,
      h.add_opp _ _ _ _
        (h.mul_same_opp _ _ _ _ (h.mul _ _ _ _ (h.refl _) ih.1) ih.2) hy0⟩

end

/-- Exact rational arithmetic has the properties of conjugation, with equality and
negation. -/
theorem conjLaws_rat : ConjLaws (fun a b : ℚ => a = b) (fun a b : ℚ => b = -a) where
  refl _ := rfl
  add a a1 b b1 ha hb := by rw [ha, hb]
  sub a a1 b b1 ha hb := by rw [ha, hb]
  mul a a1 b b1 ha hb := by rw [ha, hb]
  mul_opp_opp a a1 b b1 ha hb := by rw [ha, hb]; ring
  mul_same_opp a a1 b b1 ha hb := by rw [← ha, hb]; ring
  add_opp a a1 b b1 ha hb := by rw [ha, hb]; ring
  le a a1 b b1 ha hb := by rw [ha, hb]

/-- C20.  For every point `(x, y)` and every `max`, in every arithmetic in which sums,
differences and products respect equal and opposite numbers and the comparison does not
tell equal numbers apart, a point `(x, y')` with `y'` the negative of `y` has the same
iteration count and the same color as `(x, y)`: the orbits are conjugate at every step and
the escape test gives the same answer on both. -/
theorem conjugation_symmetry {F : Type} [DoubleOps F] (same opp : F → F → Prop)
    (h : ConjLaws same opp) (x y y' : F) (hy : opp y y') (max : Int) :
    (∀ k : Nat, same (specOrbit x y k).1 (specOrbit x y' k).1 ∧
      opp (specOrbit x y k).2 (specOrbit x y' k).2 ∧
      specEscaped (specOrbit x y k) = specEscaped (specOrbit x y' k)) ∧
    (whileLoop max x y ⟨x, y, 0⟩).iter = (whileLoop max x y' ⟨x, y', 0⟩).iter ∧
    iterations_at_point x y max = iterations_at_point x y' max := by
  have hiter : (whileLoop max x y ⟨x, y, 0⟩).iter = (whileLoop max x y' ⟨x, y', 0⟩).iter :=
    whileLoop_conj same opp h max x x y y' (h.refl x) hy _ ⟨x, y, 0⟩ ⟨x, y', 0⟩ rfl rfl
      (h.refl x) hy
  refine ⟨?_, hiter, ?_⟩
  · intro k
    obtain ⟨hx, hyk⟩ := specOrbit_conj same opp h x x y y' (h.refl x) hy k
    refine ⟨hx, hyk, ?_⟩
    unfold specEscaped
    rw [h.le _ _ _ _ (h.add _ _ _ _ (h.mul _ _ _ _ hx hx) (h.mul_opp_opp _ _ _ _ hyk hyk))
      (h.refl (DoubleOps.ofInt 4))]
  · unfold iterations_at_point
    rw [hiter]

/-- The points `(-1, -1/2)` and `(-1, 1/2)` with `max = 1000`, in exact arithmetic. -/
theorem conjugation_symmetry_witness :
    (∀ k : Nat, (specOrbit (-1 : ℚ) (-1 / 2) k).1 = (specOrbit (-1 : ℚ) (-(-1 / 2)) k).1 ∧
      (specOrbit (-1 : ℚ) (-(-1 / 2)) k).2 = -(specOrbit (-1 : ℚ) (-1 / 2) k).2 ∧
      specEscaped (specOrbit (-1 : ℚ) (-1 / 2) k) =
        specEscaped (specOrbit (-1 : ℚ) (-(-1 / 2)) k)) ∧
    (whileLoop 1000 (-1 : ℚ) (-1 / 2) ⟨-1, -1 / 2, 0⟩).iter =
      (whileLoop 1000 (-1 : ℚ) (-(-1 / 2)) ⟨-1, -(-1 / 2), 0⟩).iter ∧
    iterations_at_point (-1 : ℚ) (-1 / 2) 1000 =
      iterations_at_point (-1 : ℚ) (-(-1 / 2)) 1000 :=
  conjugation_symmetry (fun a b : ℚ => a = b) (fun a b : ℚ => b = -a) conjLaws_rat
    (-1) (-1 / 2) (-(-1 / 2)) rfl 1000

end Mandel

namespace Mandel

/-! ## The order of the workers -/

/-- Two loops whose bodies keep a relation between their states, and trap together, keep the
relation and trap together. -/
theorem forLoop_rel {σ : Type} (body1 body2 : Int → σ → Option σ) (R : σ → σ → Prop)
    (lo hi : Int)
    (hbody : ∀ i s t, lo ≤ i → i < hi → R s t →
      (body1 i s = none ∧ body2 i t = none) ∨
        ∃ s1 t1, body1 i s = some s1 ∧ body2 i t = some t1 ∧ R s1 t1)
    (s t : σ) (h : R s t) :
    (forLoop body1 hi lo s = none ∧ forLoop body2 hi lo t = none) ∨
      ∃ s1 t1, forLoop body1 hi lo s = some s1 ∧ forLoop body2 hi lo t = some t1 ∧ R s1 t1 := by
  obtain ⟨n, hn⟩ : ∃ n : Nat, (hi - lo).toNat = n := ⟨_, rfl⟩
  induction n generalizing lo s t with
  | zero =>
    right
    exact ⟨s, t, forLoop_of_ge body1 (by omega) s, forLoop_of_ge body2 (by omega) t, h⟩
  | succ n ih =>
    have hlt : lo < hi := by omega
    rw [forLoop_step body1 hlt, forLoop_step body2 hlt]
    rcases hbody lo s t le_rfl hlt h with ⟨h1, h2⟩ | ⟨s1, t1, h1, h2, hR⟩
    · left; rw [h1, h2]; exact ⟨rfl, rfl⟩
    · rw [h1, h2]
      exact ih (lo + 1) (fun i a b hi1 hi2 hab => hbody i a b (by omega) hi2 hab) s1 t1 hR
        (by omega)

/-- Two bitmaps of the same size with the same pixels are equal. -/
theorem bitmap_ext {b c : bitmap} (hw : b.width = c.width) (hh : b.height = c.height)
    (hd : b.data = c.data) : b = c := by
  cases b
  cases c
  simp only at hw hh hd
  subst hw hh hd
  rfl

section
variable {F : Type} [DoubleOps F]

/-- Whether `compute_image_thread` traps depends on the size of the bitmap only, not on its
pixels. -/
theorem compute_image_thread_trap_indep (data : ThreadData F) (bm1 bm2 : bitmap)
    (hw : bm1.width = bm2.width) (hh : bm1.height = bm2.height) :
    (compute_image_thread data bm1 = none ∧ compute_image_thread data bm2 = none) ∨
      ∃ r1 r2, compute_image_thread data bm1 = some r1 ∧
        compute_image_thread data bm2 = some r2 := by
  unfold compute_image_thread bitmap_width bitmap_height
  rw [← hw, ← hh]
  have hrow : ∀ (j : Int) (s t : bitmap),
      (forLoop (pixelStep data bm1.width bm1.height j) bm1.width 0 s = none ∧
        forLoop (pixelStep data bm1.width bm1.height j) bm1.width 0 t = none) ∨
      ∃ s1 t1, forLoop (pixelStep data bm1.width bm1.height j) bm1.width 0 s = some s1 ∧
        forLoop (pixelStep data bm1.width bm1.height j) bm1.width 0 t = some t1 ∧ True := by
    intro j s t
    refine forLoop_rel _ _ (fun _ _ => True) 0 bm1.width ?_ s t trivial
    intro i a b _ _ _
    unfold pixelStep
    simp only
    cases iterations_at_point (pixelX data bm1.width i) (pixelY data bm1.height j)
        data.maxIterations with
    | none => left; exact ⟨rfl, rfl⟩
    | some c => right; exact ⟨_, _, rfl, rfl, trivial⟩
  rcases forLoop_rel
      (fun j => forLoop (pixelStep data bm1.width bm1.height j) bm1.width 0)
      (fun j => forLoop (pixelStep data bm1.width bm1.height j) bm1.width 0)
      (fun _ _ => True) data.startRow data.endRow
      (fun j s t _ _ _ => hrow j s t) bm1 bm2 trivial with h | ⟨r1, r2, h1, h2, _⟩
  · left; exact h
  · right; exact ⟨r1, r2, h1, h2⟩

/-- The result of `compute_image_thread`, pixel by pixel: a pixel of the band holds the color
of its point, every other pixel is unchanged. -/
theorem compute_image_thread_data {data : ThreadData F} {bm bm' : bitmap}
    (hs : compute_image_thread data bm = some bm') (a b : Int) :
    (data.startRow ≤ b ∧ b < data.endRow ∧ 0 ≤ a ∧ a < bm.width ∧
      some (bm'.data a b) =
        iterations_at_point (pixelX data bm.width a) (pixelY data bm.height b)
          data.maxIterations) ∨
    (¬ (data.startRow ≤ b ∧ b < data.endRow ∧ 0 ≤ a ∧ a < bm.width) ∧
      bm'.data a b = bm.data a b) := by
  by_cases hin : data.startRow ≤ b ∧ b < data.endRow ∧ 0 ≤ a ∧ a < bm.width
  · left
    exact ⟨hin.1, hin.2.1, hin.2.2.1, hin.2.2.2,
      compute_image_thread_pixel hs a b hin.1 hin.2.1 hin.2.2.1 hin.2.2.2⟩
  · right
    exact ⟨hin, compute_image_thread_frame_columns hs a b hin⟩

/-- Two workers that color the points alike can run in either order. -/
theorem compute_image_thread_comm (d1 d2 : ThreadData F)
    (hval : ∀ w h a b, iterations_at_point (pixelX d1 w a) (pixelY d1 h b) d1.maxIterations =
      iterations_at_point (pixelX d2 w a) (pixelY d2 h b) d2.maxIterations)
    (bm : bitmap) :
    (compute_image_thread d1 bm).bind (compute_image_thread d2) =
      (compute_image_thread d2 bm).bind (compute_image_thread d1) := by
  cases hA : compute_image_thread d1 bm with
  | none =>
    cases hB : compute_image_thread d2 bm with
    | none => rfl
    | some b2 =>
      obtain ⟨fw, fh, _⟩ := compute_image_thread_frame hB
      rcases compute_image_thread_trap_indep d1 bm b2 fw.symm fh.symm with h | ⟨r1, r2, h1, h2⟩
      · show none = compute_image_thread d1 b2
        rw [h.2]
      · rw [hA] at h1; cases h1
  | some b1 =>
    obtain ⟨fw1, fh1, _⟩ := compute_image_thread_frame hA
    cases hB : compute_image_thread d2 bm with
    | none =>
      rcases compute_image_thread_trap_indep d2 bm b1 fw1.symm fh1.symm with h | ⟨r1, r2, h1, h2⟩
      · show compute_image_thread d2 b1 = none
        exact h.2
      · rw [hB] at h1; cases h1
    | some b2 =>
      obtain ⟨fw2, fh2, _⟩ := compute_image_thread_frame hB
      show compute_image_thread d2 b1 = compute_image_thread d1 b2
      rcases compute_image_thread_trap_indep d2 bm b1 fw1.symm fh1.symm with h | ⟨r1, c1, h1, hc1⟩
      · rw [hB] at h; cases h.1
      rcases compute_image_thread_trap_indep d1 bm b2 fw2.symm fh2.symm with h | ⟨r2, c2, h2, hc2⟩
      · rw [hA] at h; cases h.1
      rw [hc1, hc2]
      congr 1
      obtain ⟨gw1, gh1, _⟩ := compute_image_thread_frame hc1
      obtain ⟨gw2, gh2, _⟩ := compute_image_thread_frame hc2
      have hdata : c1.data = c2.data := by
        funext a b
        have e1 := compute_image_thread_data hA a b
        have e2 := compute_image_thread_data hB a b
        have e3 := compute_image_thread_data hc1 a b
        have e4 := compute_image_thread_data hc2 a b
        rw [fw1, fh1] at e3
        rw [fw2, fh2] at e4
        rcases e3 with ⟨p1, p2, p3, p4, v3⟩ | ⟨n3, v3⟩
        · rcases e4 with ⟨q1, q2, q3, q4, v4⟩ | ⟨n4, v4⟩
          · rw [hval] at v4
            rw [← v3] at v4
            exact (Option.some.inj v4).symm
          · rcases e2 with ⟨_, _, _, _, v2⟩ | ⟨n2, _⟩
            · rw [v4]
              rw [← v3] at v2
              exact (Option.some.inj v2).symm
            · exact absurd ⟨p1, p2, p3, p4⟩ n2
        · rcases e4 with ⟨q1, q2, q3, q4, v4⟩ | ⟨n4, v4⟩
          · rcases e1 with ⟨_, _, _, _, v1⟩ | ⟨n1, _⟩
            · rw [v3]
              rw [← v4] at v1
              exact Option.some.inj v1
            · exact absurd ⟨q1, q2, q3, q4⟩ n1
          · rcases e1 with ⟨r1, r2, r3, r4, _⟩ | ⟨_, v1⟩
            · exact absurd ⟨r1, r2, r3, r4⟩ n4
            · rcases e2 with ⟨r1, r2, r3, r4, _⟩ | ⟨_, v2⟩
              · exact absurd ⟨r1, r2, r3, r4⟩ n3
              · rw [v3, v4, v1, v2]
      exact bitmap_ext (by rw [gw1, fw1, gw2, fw2]) (by rw [gh1, fh1, gh2, fh2]) hdata

theorem runWorkers_cons (cfg : Config F) (k : Int) (ks : List Int) (bm : bitmap) :
    runWorkers cfg (k :: ks) bm =
      (compute_image_thread (thread_data cfg k) bm).bind (runWorkers cfg ks) := by
  show (match compute_image_thread (thread_data cfg k) bm with
    | none => none
    | some bm1 => runWorkers cfg ks bm1) = _
  cases compute_image_thread (thread_data cfg k) bm <;> rfl

theorem runWorkers_append (cfg : Config F) (ks ls : List Int) (bm : bitmap) :
    runWorkers cfg (ks ++ ls) bm = (runWorkers cfg ks bm).bind (runWorkers cfg ls) := by
  induction ks generalizing bm with
  | nil => rfl
  | cons k ks ih =>
    rw [List.cons_append, runWorkers_cons, runWorkers_cons]
    cases compute_image_thread (thread_data cfg k) bm with
    | none => rfl
    | some b => exact ih b

/-- Running the workers of two lists that are permutations of each other gives the same
image. -/
theorem runWorkers_perm (cfg : Config F) {ks ls : List Int} (h : ks.Perm ls) (bm : bitmap) :
    runWorkers cfg ks bm = runWorkers cfg ls bm := by
  induction h generalizing bm with
  | nil => rfl
  | cons k _ ih =>
    rw [runWorkers_cons, runWorkers_cons]
    cases compute_image_thread (thread_data cfg k) bm with
    | none => rfl
    | some b => exact ih b
  | swap k l ms =>
    have e : ∀ i : Int, runWorkers cfg (i :: ms) =
        fun b => (compute_image_thread (thread_data cfg i) b).bind (runWorkers cfg ms) :=
      fun i => funext (runWorkers_cons cfg i ms)
    rw [runWorkers_cons, runWorkers_cons, e k, e l, ← Option.bind_assoc, ← Option.bind_assoc,
      compute_image_thread_comm (thread_data cfg l) (thread_data cfg k)
        (fun _ _ _ _ => rfl) bm]
  | trans _ _ ih1 ih2 => exact (ih1 bm).trans (ih2 bm)

/-- The loop of `main` that creates the workers runs them in the order of their indices. -/
theorem workers_eq_runWorkers (cfg : Config F) (bm : bitmap) :
    ∀ n : Nat, forLoop (launch cfg) n 0 { bm := bm, created := 0 } =
      (runWorkers cfg (workerIndices n) bm).map (fun b => { bm := b, created := n }) := by
  intro n
  induction n with
  | zero =>
    rw [forLoop_of_ge _ (by simp)]
    rfl
  | succ n ih =>
    have hlast := forLoop_last (launch cfg) (show (0 : Int) < ((n + 1 : Nat) : Int) by
      push_cast; omega) { bm := bm, created := 0 }
    rw [show ((n + 1 : Nat) : Int) - 1 = (n : Int) by push_cast; omega, ih] at hlast
    rw [hlast]
    have hidx : workerIndices ((n + 1 : Nat) : Int) = workerIndices (n : Int) ++ [(n : Int)] := by
      unfold workerIndices
      rw [Int.toNat_ofNat, Int.toNat_ofNat, List.range_succ, List.map_append]
      rfl
    rw [hidx, runWorkers_append]
    cases runWorkers cfg (workerIndices (n : Int)) bm with
    | none => rfl
    | some b1 =>
      show launch cfg n { bm := b1, created := n } = _
      unfold launch
      show _ = (runWorkers cfg [(n : Int)] b1).map _
      rw [runWorkers_cons]
      cases compute_image_thread (thread_data cfg n) b1 with
      | none => rfl
      | some b2 =>
        show _ = some _
        simp

end

/-- C16.  For every configuration, in every arithmetic, and any two workers `k` and `k'` of
`main`, running `compute_image_thread` for both on an image gives the same image in either
order; running the workers `0, ..., W - 1` in any permutation gives the image that the loop
of `main` gives in the order of creation. -/
theorem workers_order_independent {F : Type} [DoubleOps F] (cfg : Config F) (bm : bitmap) :
    (∀ k k' : Int,
      (compute_image_thread (thread_data cfg k) bm).bind
          (compute_image_thread (thread_data cfg k')) =
        (compute_image_thread (thread_data cfg k') bm).bind
          (compute_image_thread (thread_data cfg k))) ∧
    (∀ ks : List Int, ks.Perm (workerIndices cfg.numberOfThreads) →
      runWorkers cfg ks bm = runWorkers cfg (workerIndices cfg.numberOfThreads) bm) ∧
    runWorkers cfg (workerIndices cfg.numberOfThreads) bm =
      (forLoop (launch cfg) cfg.numberOfThreads 0 { bm := bm, created := 0 }).map
        MainState.bm := by
  refine ⟨fun k k' => compute_image_thread_comm (thread_data cfg k) (thread_data cfg k')
      (fun _ _ _ _ => rfl) bm,
    fun ks h => runWorkers_perm cfg h bm, ?_⟩
  by_cases hW : 0 ≤ cfg.numberOfThreads
  · have h := workers_eq_runWorkers cfg bm cfg.numberOfThreads.toNat
    rw [show ((cfg.numberOfThreads.toNat : Nat) : Int) = cfg.numberOfThreads by omega] at h
    rw [h]
    cases runWorkers cfg (workerIndices cfg.numberOfThreads) bm <;> rfl
  · rw [forLoop_of_ge _ (by omega)]
    have : workerIndices cfg.numberOfThreads = [] := by
      unfold workerIndices
      rw [show cfg.numberOfThreads.toNat = 0 by omega]
      rfl
    rw [this]
    rfl

end Mandel
